import Mathlib

/-!
Verification of the fdlpy repository (fdl_copy.py, fdl_paste.py, tui_fdl_pro.py).

Python strings are embedded as `List Char`; the relevant Python string
operations (`str.splitlines`, `str.strip`, `str.split(sep)`,
`str.split('\n', 1)`, `str.startswith`, `"\n".join`) are defined below,
faithful to CPython semantics on the operations the code performs.
-/

/-- Characters `str.splitlines` treats as line boundaries (CPython). -/
def isPyLineBreak (c : Char) : Bool :=
  c == '\n' || c == '\r' || c == '\x0b' || c == '\x0c' ||
  c == '\x1c' || c == '\x1d' || c == '\x1e' || c == '\x85' ||
  c == '\u2028' || c == '\u2029'

/-- Characters `str.strip()` removes: the complete CPython whitespace
set (`Py_UNICODE_ISSPACE`): ASCII `\t \n \v \f \r`, the separators
U+001C-U+001F, space, NEL U+0085, NBSP U+00A0, Ogham space U+1680, the
Zs spaces U+2000-U+200A, the line and paragraph separators
U+2028/U+2029, U+202F, U+205F, and the ideographic space U+3000. -/
def isPySpace (c : Char) : Bool :=
  c == ' ' || c == '\t' || c == '\n' || c == '\r' || c == '\x0b' || c == '\x0c' ||
  c == '\x1c' || c == '\x1d' || c == '\x1e' || c == '\x1f' ||
  c == '\x85' || c == '\xa0' || c == '\u1680' ||
  c == '\u2000' || c == '\u2001' || c == '\u2002' || c == '\u2003' ||
  c == '\u2004' || c == '\u2005' || c == '\u2006' || c == '\u2007' ||
  c == '\u2008' || c == '\u2009' || c == '\u200a' ||
  c == '\u2028' || c == '\u2029' || c == '\u202f' || c == '\u205f' || c == '\u3000'

/-- Worker for `str.splitlines`: accumulates the current line (reversed);
a `"\r\n"` pair counts as a single boundary. -/
def splitlinesAux : List Char → List Char → List (List Char)
  | acc, [] => if acc.isEmpty then [] else [acc.reverse]
  | acc, [c] =>
    if isPyLineBreak c then [acc.reverse] else [(c :: acc).reverse]
  | acc, c :: d :: rest =>
    if c == '\r' && d == '\n' then acc.reverse :: splitlinesAux [] rest
    else if isPyLineBreak c then acc.reverse :: splitlinesAux [] (d :: rest)
    else splitlinesAux (c :: acc) (d :: rest)

/-- `str.splitlines()`. -/
def pySplitlines (s : List Char) : List (List Char) := splitlinesAux [] s

/-- `sep.join(xs)`. -/
def joinWith (sep : List Char) : List (List Char) → List Char
  | [] => []
  | [x] => x
  | x :: y :: rest => x ++ sep ++ joinWith sep (y :: rest)

/-- Left strip: `str.lstrip()`. -/
def pyLStrip (s : List Char) : List Char := s.dropWhile isPySpace

/-- Right strip: `str.rstrip()`. -/
def pyRStrip (s : List Char) : List Char := (s.reverse.dropWhile isPySpace).reverse

/-- `str.strip()`. -/
def pyStrip (s : List Char) : List Char := pyRStrip (pyLStrip s)

/-- `a.startswith(d)` (also Python `str.split` substring matching probe). -/
def startsWith : List Char → List Char → Bool
  | [], _ => true
  | _ :: _, [] => false
  | d :: ds, c :: cs => d == c && startsWith ds cs

/-- `part.split('\n', 1)` together with the `ValueError` fallback in
`fdl_to_dir` (a part without a newline yields content `""`). -/
def splitFirstNl : List Char → List Char × List Char
  | [] => ([], [])
  | c :: rest =>
    if c == '\n' then ([], rest)
    else
      let pr := splitFirstNl rest
      (c :: pr.1, pr.2)

/-- The FDL marker `"$$FILE"` (`FILE_MARKER` in the source). -/
def MARKER : List Char := "$$FILE".toList

/-- The marker followed by one space, `"$$FILE "`. -/
def MARKERSP : List Char := "$$FILE ".toList

/-- The record delimiter `"\n$$FILE "` used by `fdl_to_dir`'s split. -/
def DELIM : List Char := "\n$$FILE ".toList

/-- Fuel-indexed worker for `temp_fdl.split("\n$$FILE ")` (CPython
`str.split` with a non-empty separator: repeatedly cut at the leftmost
occurrence).  The fuel only serves structural recursion; it is always
run with fuel greater than the input length, so the fuel-exhausted
branch is unreachable. -/
def splitDelimF : Nat → List Char → List Char → List (List Char)
  | 0, acc, s => [acc.reverse ++ s]
  | _ + 1, acc, [] => [acc.reverse]
  | fuel + 1, acc, c :: rest =>
    if startsWith DELIM (c :: rest) then
      acc.reverse :: splitDelimF fuel [] (List.drop 7 rest)
    else
      splitDelimF fuel (c :: acc) rest

/-- `s.split("\n$$FILE ")`. -/
def splitDelim (s : List Char) : List (List Char) := splitDelimF (s.length + 1) [] s

/-- Normalization step of `fdl_to_dir`:
`"\n".join(fdl_string.splitlines())`. -/
def pyNormalize (s : List Char) : List Char := joinWith ['\n'] (pySplitlines s)

/-- The per-record loop body of `fdl_to_dir` over `parts[1:]`: blank
parts are skipped, the part is split at the first newline into
`(path_part, content)`, the path is stripped, an empty path is skipped
with a warning, and otherwise the pair `(relative_path, content)` is
written to disk.  The returned list is the ordered sequence of
`(relative_path, content)` files the decode creates. -/
def processParts : List (List Char) → List (List Char × List Char)
  | [] => []
  | part :: rest =>
    if (pyStrip part).isEmpty then processParts rest
    else
      let pc := splitFirstNl part
      let relative_path := pyStrip pc.1
      if relative_path.isEmpty then processParts rest
      else (relative_path, pc.2) :: processParts rest

/-- The serialization loop of `dir_to_fdl` (fdl_copy.py): for each walked
text file, the line `"$$FILE " + relative_path` and then the raw content
are appended to `fdl_parts`. -/
def fdlPartsOf : List (List Char × List Char) → List (List Char)
  | [] => []
  | (p, c) :: rest => (MARKERSP ++ p) :: c :: fdlPartsOf rest

/-- `dir_to_fdl` applied to the ordered sequence of
`(relative_path, content)` pairs discovered by the directory walk:
`"\n".join(fdl_parts)`. -/
def dir_to_fdl (pairs : List (List Char × List Char)) : List Char :=
  joinWith ['\n'] (fdlPartsOf pairs)

/-- `fdl_to_dir` (fdl_paste.py) as a function from the input text to the
ordered list of `(relative_path, content)` files it creates; the error
value models the `ValueError` raised when the marker check fails, which
happens before anything is written to disk. -/
def fdl_to_dir (s : List Char) : Except Unit (List (List Char × List Char)) :=
  let normalized := pyNormalize s
  if startsWith MARKER (pyStrip normalized) then
    let temp := if startsWith ['\n'] normalized then normalized else '\n' :: normalized
    Except.ok (processParts (splitDelim temp).tail)
  else
    Except.error ()

deriving instance DecidableEq for Except

example : pySplitlines "a\r\nb\rc".toList = ["a".toList, "b".toList, "c".toList] := by decide
example : pyNormalize "a\nb\n".toList = "a\nb".toList := by decide
example : pyStrip "  a b\t".toList = "a b".toList := by decide
example : splitDelim "\n$$FILE a\nx\n$$FILE b\ny".toList =
    [[], "a\nx".toList, "b\ny".toList] := by decide
example : fdl_to_dir (dir_to_fdl [("a".toList, "hi".toList), ("b/c".toList, "".toList)]) =
    Except.ok [("a".toList, "hi".toList), ("b/c".toList, "".toList)] := by decide
example : fdl_to_dir (dir_to_fdl [("a".toList, "x\n".toList)]) =
    Except.ok [("a".toList, "x".toList)] := by decide
example : fdl_to_dir "hello".toList = Except.error () := by decide
example : pyStrip "\u2000a\u3000".toList = "a".toList := by decide
example : fdl_to_dir "\u2000$$FILE a\nx".toList = Except.ok [] := by decide
example : fdl_to_dir "$$FILE \u3000\nx".toList = Except.ok [] := by decide

/-!
Embedding of tui_fdl_pro.py.

The filesystem the TUI scans is modeled as a tree of entries: a file
entry carries its `os.path.getsize` byte length, a directory entry the
listing that iterating `sorted(os.scandir(...), key=...)` yields (the
listing order is part of the scanning environment).  The decodability
probe `is_encodable` and the shell-glob matcher `fnmatch.fnmatch` are
I/O-backed library calls; they are modeled as function parameters
`encFn : List Char → Bool` (by file path, stable across the session
because the tree is scanned once) and
`matchFn : name → pattern → Bool`.
-/

mutual
inductive FSEntry : Type where
  | file (name : List Char) (size : Nat)
  | dir (name : List Char) (entries : FSList)
inductive FSList : Type where
  | nil
  | cons (e : FSEntry) (t : FSList)
end

/-- Node kind, the `node["type"]` field (`"dir"` or `"file"`). -/
inductive NKind : Type where
  | dir
  | file
deriving DecidableEq

mutual
/-- One node dict built by `_build_tree`. -/
inductive Node : Type where
  | mk (name : List Char) (path : List Char) (depth : Nat) (selected : Bool)
       (kind : NKind) (expanded : Bool) (size : Nat) (children : NodeList)
       (encodable_count : Nat) (encodable_size : Nat)
inductive NodeList : Type where
  | nil
  | cons (n : Node) (t : NodeList)
end

def Node.name : Node → List Char
  | .mk nm _ _ _ _ _ _ _ _ _ => nm

def Node.path : Node → List Char
  | .mk _ p _ _ _ _ _ _ _ _ => p

def Node.depth : Node → Nat
  | .mk _ _ d _ _ _ _ _ _ _ => d

def Node.selected : Node → Bool
  | .mk _ _ _ s _ _ _ _ _ _ => s

def Node.kind : Node → NKind
  | .mk _ _ _ _ k _ _ _ _ _ => k

def Node.size : Node → Nat
  | .mk _ _ _ _ _ _ sz _ _ _ => sz

def Node.children : Node → NodeList
  | .mk _ _ _ _ _ _ _ ch _ _ => ch

/-- Path join `os.path.join(dirpath, name)` with `/` (POSIX). -/
def joinPath (a b : List Char) : List Char := a ++ '/' :: b

def FSEntry.fsname : FSEntry → List Char
  | .file nm _ => nm
  | .dir nm _ => nm

/-- `any(fnmatch.fnmatch(entry.name, p) for p in self.exclude_patterns)`. -/
def anyMatch (matchFn : List Char → List Char → Bool) (nm : List Char) :
    List (List Char) → Bool
  | [] => false
  | p :: ps => matchFn nm p || anyMatch matchFn nm ps

/-- Sum of the `size` fields of a list of nodes
(`sum(c.get("size", 0) for c in node["children"])`). -/
def sizeSum : NodeList → Nat
  | .nil => 0
  | .cons n t => n.size + sizeSum t

mutual
/-- `FdlTuiApp._build_tree(path, depth)`: returns the node together with
the subtree's `(encodable_count, encodable_size)` totals.  `path` is the
path of the entry itself; `os.path.getsize` reads the model size (the
scanned entry exists for the duration of the session). -/
def build (encFn : List Char → Bool) (matchFn : List Char → List Char → Bool)
    (excl : List (List Char)) (path : List Char) (e : FSEntry) (depth : Nat) :
    Node × Nat × Nat :=
  match e with
  | .file nm sz =>
    if encFn path then
      (Node.mk nm path depth true NKind.file false sz NodeList.nil 1 sz, 1, sz)
    else
      (Node.mk nm path depth false NKind.file false sz NodeList.nil 0 0, 0, 0)
  | .dir nm entries =>
    let bl := buildList encFn matchFn excl path entries depth
    let sz := sizeSum bl.1
    (Node.mk nm path depth true NKind.dir false sz bl.1 bl.2.1 bl.2.2, bl.2.1, bl.2.2)

/-- The child loop of `_build_tree`: an entry matching an exclusion
pattern is skipped when the parent's depth is 0, otherwise it is built
at `depth + 1`; counts and sizes are accumulated. -/
def buildList (encFn : List Char → Bool) (matchFn : List Char → List Char → Bool)
    (excl : List (List Char)) (parentPath : List Char) (es : FSList) (depth : Nat) :
    NodeList × Nat × Nat :=
  match es with
  | .nil => (NodeList.nil, 0, 0)
  | .cons e rest =>
    if depth == 0 && anyMatch matchFn e.fsname excl then
      buildList encFn matchFn excl parentPath rest depth
    else
      let b := build encFn matchFn excl (joinPath parentPath e.fsname) e (depth + 1)
      let brest := buildList encFn matchFn excl parentPath rest depth
      (NodeList.cons b.1 brest.1, b.2.1 + brest.2.1, b.2.2 + brest.2.2)
end

mutual
/-- `FdlTuiApp._calculate_selection_delta(node, target_state)`. -/
def calcDelta (encFn : List Char → Bool) (n : Node) (t : Bool) : Int × Int :=
  match n with
  | .mk _ p _ sel k _ sz ch _ _ =>
    if sel == t then (0, 0)
    else if !(k == NKind.dir || encFn p) then (0, 0)
    else if k == NKind.file then
      let change : Int := if t then 1 else -1
      (change, change * (sz : Int))
    else
      calcDeltaList encFn ch t

def calcDeltaList (encFn : List Char → Bool) (l : NodeList) (t : Bool) : Int × Int :=
  match l with
  | .nil => (0, 0)
  | .cons n rest =>
    let d := calcDelta encFn n t
    let ds := calcDeltaList encFn rest t
    (d.1 + ds.1, d.2 + ds.2)
end

mutual
/-- `FdlTuiApp._apply_selection_state(node, state)`. -/
def applySel (encFn : List Char → Bool) (n : Node) (s : Bool) : Node :=
  match n with
  | .mk nm p d sel k ex sz ch ec es =>
    if (k == NKind.dir || encFn p) && sel != s then
      Node.mk nm p d s k ex sz (applySelList encFn ch s) ec es
    else
      Node.mk nm p d sel k ex sz ch ec es

def applySelList (encFn : List Char → Bool) (l : NodeList) (s : Bool) : NodeList :=
  match l with
  | .nil => NodeList.nil
  | .cons n rest => NodeList.cons (applySel encFn n s) (applySelList encFn rest s)
end

/-- `FdlTuiApp._toggle_selection(node, select_state)` acting on one node:
returns the updated subtree and the `(delta_count, delta_size)` added to
the running totals. -/
def toggleNode (encFn : List Char → Bool) (n : Node) (opt : Option Bool) :
    Node × Int × Int :=
  if n.kind == NKind.dir || encFn n.path then
    let target := match opt with | some s => s | none => !n.selected
    let d := calcDelta encFn n target
    (applySel encFn n target, d.1, d.2)
  else
    (n, 0, 0)

mutual
/-- Locate the node a child-index path points at (the cursor in the TUI
always references a node present in the tree). -/
def nodeAt (n : Node) (pos : List Nat) : Option Node :=
  match pos with
  | [] => some n
  | i :: rest =>
    match n with
    | .mk _ _ _ _ _ _ _ ch _ _ => nodeAtList ch i rest

def nodeAtList (l : NodeList) (i : Nat) (rest : List Nat) : Option Node :=
  match l, i with
  | .nil, _ => none
  | .cons n _, 0 => nodeAt n rest
  | .cons _ t, j + 1 => nodeAtList t j rest
end

mutual
/-- Apply `_toggle_selection` to the node at `pos` inside the tree,
returning the updated tree and the totals delta.  A position that does
not exist (never produced by the TUI cursor) leaves the tree unchanged. -/
def toggleAt (encFn : List Char → Bool) (n : Node) (pos : List Nat)
    (opt : Option Bool) : Node × Int × Int :=
  match pos with
  | [] => toggleNode encFn n opt
  | i :: rest =>
    match n with
    | .mk nm p d sel k ex sz ch ec es =>
      let r := toggleAtList encFn ch i rest opt
      (Node.mk nm p d sel k ex sz r.1 ec es, r.2.1, r.2.2)

def toggleAtList (encFn : List Char → Bool) (l : NodeList) (i : Nat)
    (rest : List Nat) (opt : Option Bool) : NodeList × Int × Int :=
  match l, i with
  | .nil, _ => (NodeList.nil, 0, 0)
  | .cons n t, 0 =>
    let r := toggleAt encFn n rest opt
    (NodeList.cons r.1 t, r.2.1, r.2.2)
  | .cons n t, j + 1 =>
    let r := toggleAtList encFn t j rest opt
    (NodeList.cons n r.1, r.2.1, r.2.2)
end

/-- The mutable app state the selection engine maintains:
`self.tree`, `self.selected_count`, `self.selected_size`. -/
structure AppState : Type where
  tree : Node
  selected_count : Int
  selected_size : Int

/-- `_build_tree_worker` followed by the loading-to-browse handoff:
build the tree and initialize the totals with the whole-tree encodable
totals. -/
def initApp (encFn : List Char → Bool) (matchFn : List Char → List Char → Bool)
    (excl : List (List Char)) (rootPath : List Char) (fs : FSEntry) : AppState :=
  let b := build encFn matchFn excl rootPath fs 0
  { tree := b.1, selected_count := (b.2.1 : Int), selected_size := (b.2.2 : Int) }

/-- One `_toggle_selection` keystroke on the node under the cursor. -/
def toggleApp (encFn : List Char → Bool) (st : AppState) (pos : List Nat)
    (opt : Option Bool) : AppState :=
  let r := toggleAt encFn st.tree pos opt
  { tree := r.1,
    selected_count := st.selected_count + r.2.1,
    selected_size := st.selected_size + r.2.2 }

/-- Selection states reachable in a session: the initial build, then any
sequence of toggle keystrokes (`+`/`-`/space on any cursor position). -/
inductive Reachable (encFn : List Char → Bool)
    (matchFn : List Char → List Char → Bool) (excl : List (List Char))
    (rootPath : List Char) (fs : FSEntry) : AppState → Prop where
  | init : Reachable encFn matchFn excl rootPath fs
      (initApp encFn matchFn excl rootPath fs)
  | step (st : AppState) (pos : List Nat) (opt : Option Bool) :
      Reachable encFn matchFn excl rootPath fs st →
      Reachable encFn matchFn excl rootPath fs (toggleApp encFn st pos opt)

mutual
/-- `FdlTuiApp._generate_fdl_string` at record granularity: the ordered
list of file nodes for which a `$$FILE` record (marker line plus file
content) is appended to `fdl_parts`. -/
def generate_fdl_records (encFn : List Char → Bool) (n : Node) : List Node :=
  match n with
  | .mk nm p d sel k ex sz ch ec es =>
    if sel then
      if k == NKind.file then
        if encFn p then [Node.mk nm p d sel k ex sz ch ec es] else []
      else
        generateRecordsList encFn ch
    else
      []

def generateRecordsList (encFn : List Char → Bool) (l : NodeList) : List Node :=
  match l with
  | .nil => []
  | .cons n rest => generate_fdl_records encFn n ++ generateRecordsList encFn rest
end

mutual
/-- Number of File nodes in the subtree with `selected` and `encodable`
both true (the reference aggregate for `selected_count`). -/
def countSelEnc (encFn : List Char → Bool) (n : Node) : Nat :=
  match n with
  | .mk _ p _ sel NKind.file _ _ _ _ _ => if sel && encFn p then 1 else 0
  | .mk _ _ _ _ NKind.dir _ _ ch _ _ => countSelEncList encFn ch

def countSelEncList (encFn : List Char → Bool) (l : NodeList) : Nat :=
  match l with
  | .nil => 0
  | .cons n rest => countSelEnc encFn n + countSelEncList encFn rest
end

mutual
/-- Total `size` over File nodes with `selected` and `encodable` true
(the reference aggregate for `selected_size`). -/
def sumSelEnc (encFn : List Char → Bool) (n : Node) : Nat :=
  match n with
  | .mk _ p _ sel NKind.file _ sz _ _ _ => if sel && encFn p then sz else 0
  | .mk _ _ _ _ NKind.dir _ _ ch _ _ => sumSelEncList encFn ch

def sumSelEncList (encFn : List Char → Bool) (l : NodeList) : Nat :=
  match l with
  | .nil => 0
  | .cons n rest => sumSelEnc encFn n + sumSelEncList encFn rest
end

mutual
/-- Every encodable File node in the subtree has `selected = s`. -/
def allEncFilesSel (encFn : List Char → Bool) (n : Node) (s : Bool) : Bool :=
  match n with
  | .mk _ p _ sel NKind.file _ _ _ _ _ => !encFn p || (sel == s)
  | .mk _ _ _ _ NKind.dir _ _ ch _ _ => allEncFilesSelList encFn ch s

def allEncFilesSelList (encFn : List Char → Bool) (l : NodeList) (s : Bool) : Bool :=
  match l with
  | .nil => true
  | .cons n rest => allEncFilesSel encFn n s && allEncFilesSelList encFn rest s
end

mutual
/-- Every non-encodable File node in the subtree has `selected = false`. -/
def nonEncUnsel (encFn : List Char → Bool) (n : Node) : Bool :=
  match n with
  | .mk _ p _ sel NKind.file _ _ _ _ _ => encFn p || !sel
  | .mk _ _ _ _ NKind.dir _ _ ch _ _ => nonEncUnselList encFn ch

def nonEncUnselList (encFn : List Char → Bool) (l : NodeList) : Bool :=
  match l with
  | .nil => true
  | .cons n rest => nonEncUnsel encFn n && nonEncUnselList encFn rest
end

mutual
/-- Every selectable node (Directory, or File passing the decodability
probe) in the subtree has `selected = v`. -/
def uniformAll (encFn : List Char → Bool) (n : Node) (v : Bool) : Bool :=
  match n with
  | .mk _ p _ sel NKind.file _ _ _ _ _ => !encFn p || (sel == v)
  | .mk _ _ _ sel NKind.dir _ _ ch _ _ => (sel == v) && uniformAllList encFn ch v

def uniformAllList (encFn : List Char → Bool) (l : NodeList) (v : Bool) : Bool :=
  match l with
  | .nil => true
  | .cons n rest => uniformAll encFn n v && uniformAllList encFn rest v
end

/-- The subtree's selection is uniform at the subtree root's own flag. -/
def uniformSel (encFn : List Char → Bool) (n : Node) : Bool :=
  uniformAll encFn n n.selected

mutual
/-- Stated from the spec's words for the export contract (the amended
C2): the ordered list of File nodes that are selected, encodable, and
whose ancestor Directories (the root included) are all selected; `anc`
carries the conjunction of the ancestors' `selected` flags. -/
def selExportSpec (encFn : List Char → Bool) (anc : Bool) (n : Node) : List Node :=
  match n with
  | .mk nm p d sel NKind.file ex sz ch ec es =>
    if anc && sel && encFn p then [Node.mk nm p d sel NKind.file ex sz ch ec es] else []
  | .mk _ _ _ sel NKind.dir _ _ ch _ _ => selExportSpecList encFn (anc && sel) ch

def selExportSpecList (encFn : List Char → Bool) (anc : Bool) (l : NodeList) : List Node :=
  match l with
  | .nil => []
  | .cons n rest => selExportSpec encFn anc n ++ selExportSpecList encFn anc rest
end

/-!
Model of the decodability probe itself (`is_encodable` in tui_fdl_pro.py
and the identical `is_text_file` in fdl_copy.py).  A probe attempt
(`open` in text mode plus `f.read(1024)`) either succeeds or raises one
of the failures that reading a file as UTF-8 text can produce: an I/O
failure (`IOError`/`OSError`: missing file, permission denied, a
directory, ...) or a decode failure (`UnicodeDecodeError`).  The
filesystem is modeled by the outcome it gives each path. -/
inductive PyExn : Type where
  | ioError
  | unicodeDecodeError
deriving DecidableEq

/-- Outcome of `open(filepath, 'r', encoding='utf-8').read(1024)` on the
modeled filesystem: `none` is success, `some e` is a raised exception. -/
def tryRead (fsys : List Char → Option PyExn) (p : List Char) : Except PyExn Unit :=
  match fsys p with
  | none => Except.ok ()
  | some e => Except.error e

/-- `is_encodable(filepath)` (tui_fdl_pro.py): the `try` body followed by
the `except (UnicodeDecodeError, IOError)` handler returning `False`;
an uncaught exception would be an `Except.error` result. -/
def is_encodable (fsys : List Char → Option PyExn) (p : List Char) : Except PyExn Bool :=
  match tryRead fsys p with
  | Except.ok _ => Except.ok true
  | Except.error PyExn.unicodeDecodeError => Except.ok false
  | Except.error PyExn.ioError => Except.ok false

/-- `is_text_file(filepath)` (fdl_copy.py), textually the same probe. -/
def is_text_file (fsys : List Char → Option PyExn) (p : List Char) : Except PyExn Bool :=
  match tryRead fsys p with
  | Except.ok _ => Except.ok true
  | Except.error PyExn.unicodeDecodeError => Except.ok false
  | Except.error PyExn.ioError => Except.ok false

/-!
Concrete scenario material used by witnesses and counterexamples:
a root directory `r` containing one encodable file `f` (5 bytes), and a
variant with a subdirectory.  The probe answers `true` on every path
except those recorded in a blacklist.
-/

/-- Probe that accepts every path (all files text-decodable). -/
def encAll : List Char → Bool := fun _ => true

/-- Matcher used where the concrete scenario has no exclusions. -/
def matchNone : List Char → List Char → Bool := fun _ _ => false

/-- Matcher comparing the name to the pattern literally (the behavior of
`fnmatch` on a pattern with no wildcards, ASCII names). -/
def matchEq : List Char → List Char → Bool := fun nm p => nm == p

/-- Root directory holding a single 5-byte file `f`. -/
def fsRF : FSEntry := FSEntry.dir "r".toList (FSList.cons (FSEntry.file "f".toList 5) FSList.nil)

/-- Root directory holding directory `d` which holds file `f`. -/
def fsRDF : FSEntry :=
  FSEntry.dir "r".toList
    (FSList.cons
      (FSEntry.dir "d".toList (FSList.cons (FSEntry.file "f".toList 5) FSList.nil))
      FSList.nil)

example : (initApp encAll matchNone [] "r".toList fsRF).selected_count = 1 := by decide
example :
    countSelEnc encAll
      (toggleApp encAll (initApp encAll matchNone [] "r".toList fsRF) [] (some false)).tree
      = 0 := by decide
example :
    (toggleApp encAll (initApp encAll matchNone [] "r".toList fsRF) [] (some false)).selected_count
      = 0 := by decide

/-!
Selection engine lemmas: `_calculate_selection_delta` computes exactly
the change in the selected-and-encodable aggregates that
`_apply_selection_state` produces.
-/

mutual
theorem calcDelta_correct (encFn : List Char → Bool) (n : Node) (t : Bool) :
    calcDelta encFn n t =
      ((countSelEnc encFn (applySel encFn n t) : Int) - (countSelEnc encFn n : Int),
       (sumSelEnc encFn (applySel encFn n t) : Int) - (sumSelEnc encFn n : Int)) := by
  cases n with
  | mk nm p d sel k ex sz ch ec es =>
    by_cases hst : sel = t
    · subst hst
      cases k <;> simp [calcDelta, applySel, countSelEnc, sumSelEnc]
    · have hne : (sel == t) = false := by simp [hst]
      cases k with
      | file =>
        by_cases henc : encFn p = true
        · have := calcDeltaList_correct encFn ch t
          cases sel <;> cases t <;>
            simp_all [calcDelta, applySel, countSelEnc, sumSelEnc, applySelList]
        · have henc' : encFn p = false := by simpa using henc
          cases sel <;> cases t <;>
            simp_all [calcDelta, applySel, countSelEnc, sumSelEnc]
      | dir =>
        have hlist := calcDeltaList_correct encFn ch t
        simp [calcDelta, applySel, countSelEnc, sumSelEnc, hne, hst, hlist]

theorem calcDeltaList_correct (encFn : List Char → Bool) (l : NodeList) (t : Bool) :
    calcDeltaList encFn l t =
      ((countSelEncList encFn (applySelList encFn l t) : Int) -
        (countSelEncList encFn l : Int),
       (sumSelEncList encFn (applySelList encFn l t) : Int) -
        (sumSelEncList encFn l : Int)) := by
  cases l with
  | nil => simp [calcDeltaList, applySelList, countSelEncList, sumSelEncList]
  | cons n rest =>
    have h1 := calcDelta_correct encFn n t
    have h2 := calcDeltaList_correct encFn rest t
    simp [calcDeltaList, applySelList, countSelEncList, sumSelEncList, h1, h2]
    constructor <;> ring
end

theorem toggleNode_correct (encFn : List Char → Bool) (n : Node) (opt : Option Bool) :
    (countSelEnc encFn (toggleNode encFn n opt).1 : Int)
        = (countSelEnc encFn n : Int) + (toggleNode encFn n opt).2.1 ∧
    (sumSelEnc encFn (toggleNode encFn n opt).1 : Int)
        = (sumSelEnc encFn n : Int) + (toggleNode encFn n opt).2.2 := by
  unfold toggleNode
  by_cases hsel : (n.kind == NKind.dir || encFn n.path) = true
  · simp only [hsel, if_true]
    have h := calcDelta_correct encFn n (match opt with | some s => s | none => !n.selected)
    simp [h]
  · simp only [hsel]
    simp

mutual
/-- Every File node in the tree has an empty `children` list; true of
every tree `_build_tree` produces, and preserved by every operation. -/
def wfNode : Node → Bool
  | .mk _ _ _ _ NKind.file _ _ NodeList.nil _ _ => true
  | .mk _ _ _ _ NKind.file _ _ (NodeList.cons _ _) _ _ => false
  | .mk _ _ _ _ NKind.dir _ _ ch _ _ => wfList ch

def wfList : NodeList → Bool
  | .nil => true
  | .cons n rest => wfNode n && wfList rest
end

mutual
theorem toggleAt_correct (encFn : List Char → Bool) (n : Node) (pos : List Nat)
    (opt : Option Bool) (hwf : wfNode n = true) :
    (countSelEnc encFn (toggleAt encFn n pos opt).1 : Int)
        = (countSelEnc encFn n : Int) + (toggleAt encFn n pos opt).2.1 ∧
    (sumSelEnc encFn (toggleAt encFn n pos opt).1 : Int)
        = (sumSelEnc encFn n : Int) + (toggleAt encFn n pos opt).2.2 := by
  cases pos with
  | nil =>
    have h := toggleNode_correct encFn n opt
    simpa [toggleAt] using h
  | cons i rest =>
    cases n with
    | mk nm p d sel k ex sz ch ec es =>
      cases k with
      | file =>
        cases ch with
        | nil => simp [toggleAt, toggleAtList, countSelEnc, sumSelEnc]
        | cons c t => simp [wfNode] at hwf
      | dir =>
        have h := toggleAtList_correct encFn ch i rest opt (by simpa [wfNode] using hwf)
        simp [toggleAt, countSelEnc, sumSelEnc, h.1, h.2]

theorem toggleAtList_correct (encFn : List Char → Bool) (l : NodeList) (i : Nat)
    (rest : List Nat) (opt : Option Bool) (hwf : wfList l = true) :
    (countSelEncList encFn (toggleAtList encFn l i rest opt).1 : Int)
        = (countSelEncList encFn l : Int) + (toggleAtList encFn l i rest opt).2.1 ∧
    (sumSelEncList encFn (toggleAtList encFn l i rest opt).1 : Int)
        = (sumSelEncList encFn l : Int) + (toggleAtList encFn l i rest opt).2.2 := by
  cases l with
  | nil => simp [toggleAtList, countSelEncList, sumSelEncList]
  | cons n t =>
    have hwn : wfNode n = true := by
      have := hwf; simp [wfList] at this; exact this.1
    have hwt : wfList t = true := by
      have := hwf; simp [wfList] at this; exact this.2
    cases i with
    | zero =>
      have h := toggleAt_correct encFn n rest opt hwn
      simp [toggleAtList, countSelEncList, sumSelEncList, h.1, h.2]
      constructor <;> ring
    | succ j =>
      have h := toggleAtList_correct encFn t j rest opt hwt
      simp [toggleAtList, countSelEncList, sumSelEncList, h.1, h.2]
      constructor <;> ring
end

mutual
theorem applySel_wf (encFn : List Char → Bool) (n : Node) (s : Bool)
    (hwf : wfNode n = true) : wfNode (applySel encFn n s) = true := by
  cases n with
  | mk nm p d sel k ex sz ch ec es =>
    cases k with
    | file =>
      cases ch with
      | nil => by_cases hc : ((NKind.file == NKind.dir || encFn p) && sel != s) = true <;>
          simp [applySel, applySelList, wfNode, hc]
      | cons c t => simp [wfNode] at hwf
    | dir =>
      have h := applySelList_wf encFn ch s (by simpa [wfNode] using hwf)
      have hch : wfList ch = true := by simpa [wfNode] using hwf
      by_cases hss : sel = s <;> simp [applySel, wfNode, hss, h, hch]

theorem applySelList_wf (encFn : List Char → Bool) (l : NodeList) (s : Bool)
    (hwf : wfList l = true) : wfList (applySelList encFn l s) = true := by
  cases l with
  | nil => simp [applySelList, wfList]
  | cons n t =>
    simp [wfList] at hwf
    have h1 := applySel_wf encFn n s hwf.1
    have h2 := applySelList_wf encFn t s hwf.2
    simp [applySelList, wfList, h1, h2]
end

theorem toggleNode_wf (encFn : List Char → Bool) (n : Node) (opt : Option Bool)
    (hwf : wfNode n = true) : wfNode (toggleNode encFn n opt).1 = true := by
  unfold toggleNode
  by_cases hsel : (n.kind == NKind.dir || encFn n.path) = true <;>
    simp [hsel, applySel_wf, hwf]

mutual
theorem toggleAt_wf (encFn : List Char → Bool) (n : Node) (pos : List Nat)
    (opt : Option Bool) (hwf : wfNode n = true) :
    wfNode (toggleAt encFn n pos opt).1 = true := by
  cases pos with
  | nil => simpa [toggleAt] using toggleNode_wf encFn n opt hwf
  | cons i rest =>
    cases n with
    | mk nm p d sel k ex sz ch ec es =>
      cases k with
      | file =>
        cases ch with
        | nil => simp [toggleAt, toggleAtList, wfNode]
        | cons c t => simp [wfNode] at hwf
      | dir =>
        have h := toggleAtList_wf encFn ch i rest opt (by simpa [wfNode] using hwf)
        simp [toggleAt, wfNode, h]

theorem toggleAtList_wf (encFn : List Char → Bool) (l : NodeList) (i : Nat)
    (rest : List Nat) (opt : Option Bool) (hwf : wfList l = true) :
    wfList (toggleAtList encFn l i rest opt).1 = true := by
  cases l with
  | nil => simp [toggleAtList, wfList]
  | cons n t =>
    simp [wfList] at hwf
    cases i with
    | zero =>
      have h := toggleAt_wf encFn n rest opt hwf.1
      simp [toggleAtList, wfList, h, hwf.2]
    | succ j =>
      have h := toggleAtList_wf encFn t j rest opt hwf.2
      simp [toggleAtList, wfList, h, hwf.1]
end

/-!
Build lemmas: the tree `_build_tree` returns is well formed, and its
returned `(encodable_count, encodable_size)` totals coincide with the
selected-and-encodable aggregates of the freshly built tree (every
encodable file starts selected, every non-encodable file unselected).
-/

mutual
theorem build_wf_counts (encFn : List Char → Bool)
    (matchFn : List Char → List Char → Bool) (excl : List (List Char))
    (path : List Char) (e : FSEntry) (depth : Nat) :
    wfNode (build encFn matchFn excl path e depth).1 = true ∧
    countSelEnc encFn (build encFn matchFn excl path e depth).1
        = (build encFn matchFn excl path e depth).2.1 ∧
    sumSelEnc encFn (build encFn matchFn excl path e depth).1
        = (build encFn matchFn excl path e depth).2.2 := by
  cases e with
  | file nm sz =>
    by_cases henc : encFn path = true <;>
      simp [build, henc, wfNode, countSelEnc, sumSelEnc]
  | dir nm entries =>
    have h := buildList_wf_counts encFn matchFn excl path entries depth
    simp [build, wfNode, countSelEnc, sumSelEnc, h.1, h.2.1, h.2.2]

theorem buildList_wf_counts (encFn : List Char → Bool)
    (matchFn : List Char → List Char → Bool) (excl : List (List Char))
    (parentPath : List Char) (es : FSList) (depth : Nat) :
    wfList (buildList encFn matchFn excl parentPath es depth).1 = true ∧
    countSelEncList encFn (buildList encFn matchFn excl parentPath es depth).1
        = (buildList encFn matchFn excl parentPath es depth).2.1 ∧
    sumSelEncList encFn (buildList encFn matchFn excl parentPath es depth).1
        = (buildList encFn matchFn excl parentPath es depth).2.2 := by
  cases es with
  | nil => simp [buildList, wfList, countSelEncList, sumSelEncList]
  | cons e rest =>
    have h1 := build_wf_counts encFn matchFn excl (joinPath parentPath e.fsname) e (depth + 1)
    have h2 := buildList_wf_counts encFn matchFn excl parentPath rest depth
    by_cases hex : (depth == 0 && anyMatch matchFn e.fsname excl) = true <;>
      simp [buildList, hex, wfList, countSelEncList, sumSelEncList,
        h1.1, h1.2.1, h1.2.2, h2.1, h2.2.1, h2.2.2]
end

mutual
theorem applySel_nonEnc (encFn : List Char → Bool) (n : Node) (s : Bool)
    (h : nonEncUnsel encFn n = true) : nonEncUnsel encFn (applySel encFn n s) = true := by
  cases n with
  | mk nm p d sel k ex sz ch ec es =>
    cases k with
    | file =>
      by_cases henc : encFn p = true
      · by_cases hss : sel = s <;> simp [applySel, nonEncUnsel, henc, hss]
      · have henc' : encFn p = false := by simpa using henc
        simp [applySel, nonEncUnsel, henc']
        simpa [nonEncUnsel, henc'] using h
    | dir =>
      have hch := applySelList_nonEnc encFn ch s (by simpa [nonEncUnsel] using h)
      by_cases hss : sel = s
      · simp [applySel, nonEncUnsel, hss, hch]
        simpa [nonEncUnsel] using h
      · simp [applySel, nonEncUnsel, hss, hch]

theorem applySelList_nonEnc (encFn : List Char → Bool) (l : NodeList) (s : Bool)
    (h : nonEncUnselList encFn l = true) :
    nonEncUnselList encFn (applySelList encFn l s) = true := by
  cases l with
  | nil => simp [applySelList, nonEncUnselList]
  | cons n t =>
    simp [nonEncUnselList] at h
    simp [applySelList, nonEncUnselList, applySel_nonEnc encFn n s h.1,
      applySelList_nonEnc encFn t s h.2]
end

theorem toggleNode_nonEnc (encFn : List Char → Bool) (n : Node) (opt : Option Bool)
    (h : nonEncUnsel encFn n = true) :
    nonEncUnsel encFn (toggleNode encFn n opt).1 = true := by
  unfold toggleNode
  by_cases hsel : (n.kind == NKind.dir || encFn n.path) = true <;>
    simp [hsel, applySel_nonEnc, h]

mutual
theorem toggleAt_nonEnc (encFn : List Char → Bool) (n : Node) (pos : List Nat)
    (opt : Option Bool) (h : nonEncUnsel encFn n = true) :
    nonEncUnsel encFn (toggleAt encFn n pos opt).1 = true := by
  cases pos with
  | nil => simpa [toggleAt] using toggleNode_nonEnc encFn n opt h
  | cons i rest =>
    cases n with
    | mk nm p d sel k ex sz ch ec es =>
      cases k with
      | file => simpa [toggleAt, nonEncUnsel] using h
      | dir =>
        have hch := toggleAtList_nonEnc encFn ch i rest opt (by simpa [nonEncUnsel] using h)
        simpa [toggleAt, nonEncUnsel] using hch

theorem toggleAtList_nonEnc (encFn : List Char → Bool) (l : NodeList) (i : Nat)
    (rest : List Nat) (opt : Option Bool) (nh : nonEncUnselList encFn l = true) :
    nonEncUnselList encFn (toggleAtList encFn l i rest opt).1 = true := by
  cases l with
  | nil => simp [toggleAtList, nonEncUnselList]
  | cons n t =>
    simp [nonEncUnselList] at nh
    cases i with
    | zero =>
      simp [toggleAtList, nonEncUnselList, toggleAt_nonEnc encFn n rest opt nh.1, nh.2]
    | succ j =>
      simp [toggleAtList, nonEncUnselList, nh.1,
        toggleAtList_nonEnc encFn t j rest opt nh.2]
end

mutual
theorem build_nonEnc (encFn : List Char → Bool)
    (matchFn : List Char → List Char → Bool) (excl : List (List Char))
    (path : List Char) (e : FSEntry) (depth : Nat) :
    nonEncUnsel encFn (build encFn matchFn excl path e depth).1 = true := by
  cases e with
  | file nm sz =>
    by_cases henc : encFn path = true <;> simp [build, henc, nonEncUnsel]
  | dir nm entries =>
    have h := buildList_nonEnc encFn matchFn excl path entries depth
    simp [build, nonEncUnsel, h]

theorem buildList_nonEnc (encFn : List Char → Bool)
    (matchFn : List Char → List Char → Bool) (excl : List (List Char))
    (parentPath : List Char) (es : FSList) (depth : Nat) :
    nonEncUnselList encFn (buildList encFn matchFn excl parentPath es depth).1 = true := by
  cases es with
  | nil => simp [buildList, nonEncUnselList]
  | cons e rest =>
    have h1 := build_nonEnc encFn matchFn excl (joinPath parentPath e.fsname) e (depth + 1)
    have h2 := buildList_nonEnc encFn matchFn excl parentPath rest depth
    by_cases hex : (depth == 0 && anyMatch matchFn e.fsname excl) = true <;>
      simp [buildList, hex, nonEncUnselList, h1, h2]
end

/-- Session invariant: in every reachable state the tree is well formed,
the running totals equal the selected-and-encodable aggregates, and
every non-encodable File is unselected. -/
theorem reachable_inv (encFn : List Char → Bool)
    (matchFn : List Char → List Char → Bool) (excl : List (List Char))
    (rootPath : List Char) (fs : FSEntry) (st : AppState)
    (h : Reachable encFn matchFn excl rootPath fs st) :
    wfNode st.tree = true ∧
    st.selected_count = (countSelEnc encFn st.tree : Int) ∧
    st.selected_size = (sumSelEnc encFn st.tree : Int) ∧
    nonEncUnsel encFn st.tree = true := by
  induction h with
  | init =>
    have hb := build_wf_counts encFn matchFn excl rootPath fs 0
    have hn := build_nonEnc encFn matchFn excl rootPath fs 0
    exact ⟨hb.1, by simp [initApp, hb.2.1], by simp [initApp, hb.2.2], hn⟩
  | step st pos opt _ ih =>
    obtain ⟨hwf, hc, hs, hn⟩ := ih
    have ht := toggleAt_correct encFn st.tree pos opt hwf
    refine ⟨toggleAt_wf encFn st.tree pos opt hwf, ?_, ?_, ?_⟩
    · simp [toggleApp, ht.1, hc]
    · simp [toggleApp, ht.2, hs]
    · exact toggleAt_nonEnc encFn st.tree pos opt hn

/-- C4: in every reachable state — immediately after the initial build
and after any sequence of toggle operations (with or without an explicit
target state, at any node) — `selected_size` equals the sum of `size`
over all File nodes with `selected` and encodable both true, and
`selected_count` equals the number of such File nodes. -/
theorem c4_aggregate_invariant (encFn : List Char → Bool)
    (matchFn : List Char → List Char → Bool) (excl : List (List Char))
    (rootPath : List Char) (fs : FSEntry) (st : AppState)
    (h : Reachable encFn matchFn excl rootPath fs st) :
    st.selected_count = (countSelEnc encFn st.tree : Int) ∧
    st.selected_size = (sumSelEnc encFn st.tree : Int) :=
  ⟨(reachable_inv encFn matchFn excl rootPath fs st h).2.1,
   (reachable_inv encFn matchFn excl rootPath fs st h).2.2.1⟩

/-- Witness for C4 at a concrete reachable state: the root/file scenario
after toggling the file off. -/
theorem c4_aggregate_invariant_witness :
    (toggleApp encAll (initApp encAll matchNone [] "r".toList fsRF) [0]
        (some false)).selected_count
      = (countSelEnc encAll
          (toggleApp encAll (initApp encAll matchNone [] "r".toList fsRF) [0]
            (some false)).tree : Int) ∧
    (toggleApp encAll (initApp encAll matchNone [] "r".toList fsRF) [0]
        (some false)).selected_size
      = (sumSelEnc encAll
          (toggleApp encAll (initApp encAll matchNone [] "r".toList fsRF) [0]
            (some false)).tree : Int) :=
  c4_aggregate_invariant encAll matchNone [] "r".toList fsRF _
    (Reachable.step _ [0] (some false) Reachable.init)

mutual
theorem toggleAt_noop (encFn : List Char → Bool) (n : Node) (pos : List Nat)
    (s : Bool) (m : Node) (hm : nodeAt n pos = some m) (hs : m.selected = s) :
    toggleAt encFn n pos (some s) = (n, 0, 0) := by
  cases pos with
  | nil =>
    have hmn : n = m := by simpa [nodeAt] using hm
    subst hmn
    cases n with
    | mk nm p d sel k ex sz ch ec es =>
      have hsel : sel = s := by simpa [Node.selected] using hs
      subst hsel
      by_cases hc : (k == NKind.dir || encFn p) = true <;>
        simp [toggleAt, toggleNode, calcDelta, applySel, hc, Node.kind, Node.path,
          Node.selected]
  | cons i rest =>
    cases n with
    | mk nm p d sel k ex sz ch ec es =>
      have hm' : nodeAtList ch i rest = some m := by simpa [nodeAt, Node.children] using hm
      have h := toggleAtList_noop encFn ch i rest s m hm' hs
      simp [toggleAt, h]

theorem toggleAtList_noop (encFn : List Char → Bool) (l : NodeList) (i : Nat)
    (rest : List Nat) (s : Bool) (m : Node) (hm : nodeAtList l i rest = some m)
    (hs : m.selected = s) : toggleAtList encFn l i rest (some s) = (l, 0, 0) := by
  cases l with
  | nil => simp [nodeAtList] at hm
  | cons n t =>
    cases i with
    | zero =>
      have hm' : nodeAt n rest = some m := by simpa [nodeAtList] using hm
      have h := toggleAt_noop encFn n rest s m hm' hs
      simp [toggleAtList, h]
    | succ j =>
      have hm' : nodeAtList t j rest = some m := by simpa [nodeAtList] using hm
      have h := toggleAtList_noop encFn t j rest s m hm' hs
      simp [toggleAtList, h]
end

/-- C9: toggling a node to the selection state it already holds is a
complete no-op — the totals change by exactly zero and every node of the
tree (the whole subtree of the target included) is unchanged. -/
theorem c9_toggle_idempotent (encFn : List Char → Bool) (st : AppState)
    (pos : List Nat) (n : Node) (s : Bool) (hm : nodeAt st.tree pos = some n)
    (hs : n.selected = s) : toggleApp encFn st pos (some s) = st := by
  have h := toggleAt_noop encFn st.tree pos s n hm hs
  cases st with
  | mk tree c sz => simp [toggleApp, h]

/-- Witness for C9: re-selecting the already-selected root of the
concrete scenario tree leaves the state intact. -/
theorem c9_toggle_idempotent_witness :
    toggleApp encAll (initApp encAll matchNone [] "r".toList fsRF) [] (some true)
      = initApp encAll matchNone [] "r".toList fsRF :=
  c9_toggle_idempotent encAll (initApp encAll matchNone [] "r".toList fsRF) []
    (initApp encAll matchNone [] "r".toList fsRF).tree true (by simp [nodeAt]) (by decide)

mutual
theorem genRec_spec (encFn : List Char → Bool) (n : Node) :
    generate_fdl_records encFn n = selExportSpec encFn true n ∧
    selExportSpec encFn false n = [] := by
  cases n with
  | mk nm p d sel k ex sz ch ec es =>
    cases k with
    | file =>
      cases sel <;> by_cases henc : encFn p = true <;>
        simp [generate_fdl_records, selExportSpec, henc]
    | dir =>
      have h := genRecList_spec encFn ch
      cases sel <;> simp [generate_fdl_records, selExportSpec, h.1, h.2]

theorem genRecList_spec (encFn : List Char → Bool) (l : NodeList) :
    generateRecordsList encFn l = selExportSpecList encFn true l ∧
    selExportSpecList encFn false l = [] := by
  cases l with
  | nil => simp [generateRecordsList, selExportSpecList]
  | cons n t =>
    have h1 := genRec_spec encFn n
    have h2 := genRecList_spec encFn t
    simp [generateRecordsList, selExportSpecList, h1.1, h1.2, h2.1, h2.2]
end

/-- C2 (amended): the export walk emits exactly one record for each File
node that is selected, encodable, and all of whose ancestor Directories
(the root included) are selected, in tree (pre-order) order — and no
record for any other node.  A selected encodable File below a
deselected Directory is NOT exported, because the walk stops at any
unselected Directory. -/
theorem c2_export_records (encFn : List Char → Bool) (n : Node) :
    generate_fdl_records encFn n = selExportSpec encFn true n :=
  (genRec_spec encFn n).1

/-- Counterexample to C2 as stated: in the reachable state obtained by
deselecting directory `d` and then re-selecting the file `f` inside it,
`f` is a selected encodable File yet the export emits no record at all. -/
theorem c2_counterexample :
    Reachable encAll matchNone [] "r".toList fsRDF
      (toggleApp encAll
        (toggleApp encAll (initApp encAll matchNone [] "r".toList fsRDF) [0] (some false))
        [0, 0] (some true)) ∧
    ((nodeAt (toggleApp encAll
        (toggleApp encAll (initApp encAll matchNone [] "r".toList fsRDF) [0] (some false))
        [0, 0] (some true)).tree [0, 0]).map Node.selected = some true) ∧
    ((nodeAt (toggleApp encAll
        (toggleApp encAll (initApp encAll matchNone [] "r".toList fsRDF) [0] (some false))
        [0, 0] (some true)).tree [0, 0]).map Node.kind = some NKind.file) ∧
    ((nodeAt (toggleApp encAll
        (toggleApp encAll (initApp encAll matchNone [] "r".toList fsRDF) [0] (some false))
        [0, 0] (some true)).tree [0, 0]).map (fun n => encAll n.path) = some true) ∧
    (generate_fdl_records encAll (toggleApp encAll
        (toggleApp encAll (initApp encAll matchNone [] "r".toList fsRDF) [0] (some false))
        [0, 0] (some true)).tree).length = 0 :=
  ⟨Reachable.step _ [0, 0] (some true) (Reachable.step _ [0] (some false) Reachable.init),
   by decide, by decide, by decide, by decide⟩

mutual
theorem uniform_allsel (encFn : List Char → Bool) (n : Node) (v : Bool)
    (h : uniformAll encFn n v = true) : allEncFilesSel encFn n v = true := by
  cases n with
  | mk nm p d sel k ex sz ch ec es =>
    cases k with
    | file => simpa [uniformAll, allEncFilesSel] using h
    | dir =>
      simp [uniformAll] at h
      simpa [allEncFilesSel] using uniformList_allsel encFn ch v h.2

theorem uniformList_allsel (encFn : List Char → Bool) (l : NodeList) (v : Bool)
    (h : uniformAllList encFn l v = true) : allEncFilesSelList encFn l v = true := by
  cases l with
  | nil => simp [allEncFilesSelList]
  | cons n t =>
    simp [uniformAllList] at h
    simp [allEncFilesSelList, uniform_allsel encFn n v h.1,
      uniformList_allsel encFn t v h.2]
end

mutual
theorem applySel_uniform (encFn : List Char → Bool) (n : Node) (v tgt : Bool)
    (hu : uniformAll encFn n v = true) (hne : v ≠ tgt) :
    allEncFilesSel encFn (applySel encFn n tgt) tgt = true := by
  cases n with
  | mk nm p d sel k ex sz ch ec es =>
    cases k with
    | file =>
      by_cases henc : encFn p = true
      · have hsel : sel = v := by simpa [uniformAll, henc] using hu
        subst hsel
        simp [applySel, allEncFilesSel, henc, hne, Ne.symm hne]
      · have henc' : encFn p = false := by simpa using henc
        simp [applySel, allEncFilesSel, henc']
    | dir =>
      simp [uniformAll] at hu
      have hch := applySelList_uniform encFn ch v tgt hu.2 hne
      simp [applySel, allEncFilesSel, hu.1, hne, Ne.symm hne, hch]

theorem applySelList_uniform (encFn : List Char → Bool) (l : NodeList) (v tgt : Bool)
    (hu : uniformAllList encFn l v = true) (hne : v ≠ tgt) :
    allEncFilesSelList encFn (applySelList encFn l tgt) tgt = true := by
  cases l with
  | nil => simp [applySelList, allEncFilesSelList]
  | cons n t =>
    simp [uniformAllList] at hu
    simp [applySelList, allEncFilesSelList, applySel_uniform encFn n v tgt hu.1 hne,
      applySelList_uniform encFn t v tgt hu.2 hne]
end

/-- Toggling a Directory whose subtree selection is uniform drives every
encodable File of the subtree to the target state. -/
theorem toggleNode_uniform (encFn : List Char → Bool) (d : Node) (tgt : Bool)
    (hkind : d.kind = NKind.dir) (hu : uniformSel encFn d = true) :
    allEncFilesSel encFn (toggleNode encFn d (some tgt)).1 tgt = true := by
  unfold toggleNode
  have hsel : (d.kind == NKind.dir || encFn d.path) = true := by simp [hkind]
  simp only [hsel, if_true]
  by_cases hst : d.selected = tgt
  · have hnoop : applySel encFn d tgt = d := by
      cases d with
      | mk nm p dd sel k ex sz ch ec es =>
        have : sel = tgt := by simpa [Node.selected] using hst
        simp [applySel, this]
    rw [hnoop]
    have := uniform_allsel encFn d d.selected hu
    simpa [hst] using this
  · exact applySel_uniform encFn d d.selected tgt hu hst

mutual
theorem nodeAt_toggleAt (encFn : List Char → Bool) (n : Node) (pos : List Nat)
    (opt : Option Bool) (d : Node) (hd : nodeAt n pos = some d) :
    nodeAt (toggleAt encFn n pos opt).1 pos = some (toggleNode encFn d opt).1 := by
  cases pos with
  | nil =>
    have hdn : n = d := by simpa [nodeAt] using hd
    subst hdn
    simp [nodeAt, toggleAt]
  | cons i rest =>
    cases n with
    | mk nm p dd sel k ex sz ch ec es =>
      have hd' : nodeAtList ch i rest = some d := by simpa [nodeAt] using hd
      have h := nodeAtList_toggleAtList encFn ch i rest opt d hd'
      simp [toggleAt, nodeAt, h]

theorem nodeAtList_toggleAtList (encFn : List Char → Bool) (l : NodeList) (i : Nat)
    (rest : List Nat) (opt : Option Bool) (d : Node)
    (hd : nodeAtList l i rest = some d) :
    nodeAtList (toggleAtList encFn l i rest opt).1 i rest
      = some (toggleNode encFn d opt).1 := by
  cases l with
  | nil => simp [nodeAtList] at hd
  | cons n t =>
    cases i with
    | zero =>
      have hd' : nodeAt n rest = some d := by simpa [nodeAtList] using hd
      have h := nodeAt_toggleAt encFn n rest opt d hd'
      simp [toggleAtList, nodeAtList, h]
    | succ j =>
      have hd' : nodeAtList t j rest = some d := by simpa [nodeAtList] using hd
      have h := nodeAtList_toggleAtList encFn t j rest opt d hd'
      simp [toggleAtList, nodeAtList, h]
end

mutual
theorem nodeAt_nonEnc (encFn : List Char → Bool) (n : Node) (pos : List Nat)
    (d : Node) (hd : nodeAt n pos = some d) (hwf : wfNode n = true)
    (h : nonEncUnsel encFn n = true) : nonEncUnsel encFn d = true := by
  cases pos with
  | nil =>
    have hdn : n = d := by simpa [nodeAt] using hd
    subst hdn; exact h
  | cons i rest =>
    cases n with
    | mk nm p dd sel k ex sz ch ec es =>
      have hd' : nodeAtList ch i rest = some d := by simpa [nodeAt] using hd
      cases k with
      | file =>
        cases ch with
        | nil => simp [nodeAtList] at hd'
        | cons c t => simp [wfNode] at hwf
      | dir =>
        exact nodeAtList_nonEnc encFn ch i rest d hd'
          (by simpa [wfNode] using hwf) (by simpa [nonEncUnsel] using h)

theorem nodeAtList_nonEnc (encFn : List Char → Bool) (l : NodeList) (i : Nat)
    (rest : List Nat) (d : Node) (hd : nodeAtList l i rest = some d)
    (hwf : wfList l = true) (hch : nonEncUnselList encFn l = true) :
    nonEncUnsel encFn d = true := by
  cases l with
  | nil => simp [nodeAtList] at hd
  | cons n t =>
    simp [nonEncUnselList] at hch
    simp [wfList] at hwf
    cases i with
    | zero =>
      exact nodeAt_nonEnc encFn n rest d (by simpa [nodeAtList] using hd) hwf.1 hch.1
    | succ j =>
      exact nodeAtList_nonEnc encFn t j rest d (by simpa [nodeAtList] using hd)
        hwf.2 hch.2
end

/-- C3 (amended): toggling a Directory `d` with explicit target `tgt`
drives every encodable File in `d`'s subtree to `selected = tgt`,
provided the subtree's selection is uniform at `d`'s own flag before the
toggle (true right after the build, and after any completed propagation
over that subtree); non-encodable Files are unselected before and after.
Without the uniformity proviso the propagation can stop early: both
`_calculate_selection_delta` and `_apply_selection_state` prune any node
whose `selected` already equals the target, skipping its descendants. -/
theorem c3_directory_toggle (encFn : List Char → Bool)
    (matchFn : List Char → List Char → Bool) (excl : List (List Char))
    (rootPath : List Char) (fs : FSEntry) (st : AppState)
    (hr : Reachable encFn matchFn excl rootPath fs st)
    (pos : List Nat) (d : Node) (hd : nodeAt st.tree pos = some d)
    (hkind : d.kind = NKind.dir) (hu : uniformSel encFn d = true)
    (tgt : Bool) (d' : Node)
    (hd' : nodeAt (toggleApp encFn st pos (some tgt)).tree pos = some d') :
    allEncFilesSel encFn d' tgt = true ∧
    nonEncUnsel encFn d = true ∧
    nonEncUnsel encFn d' = true := by
  obtain ⟨hwf, _, _, hne⟩ := reachable_inv encFn matchFn excl rootPath fs st hr
  have hdn : nonEncUnsel encFn d = true := nodeAt_nonEnc encFn st.tree pos d hd hwf hne
  have htrack := nodeAt_toggleAt encFn st.tree pos (some tgt) d hd
  have hd'' : d' = (toggleNode encFn d (some tgt)).1 := by
    have : nodeAt (toggleApp encFn st pos (some tgt)).tree pos
        = some (toggleNode encFn d (some tgt)).1 := by
      simpa [toggleApp] using htrack
    have := hd'.symm.trans this
    simpa using this
  subst hd''
  exact ⟨toggleNode_uniform encFn d tgt hkind hu,
    hdn, toggleNode_nonEnc encFn d (some tgt) hdn⟩

/-- Witness for C3 at a concrete input: toggling the freshly built root
of the root/dir/file scenario off deselects the encodable file. -/
theorem c3_directory_toggle_witness :
    allEncFilesSel encAll
      ((toggleApp encAll (initApp encAll matchNone [] "r".toList fsRDF) []
        (some false)).tree) false = true ∧
    nonEncUnsel encAll (initApp encAll matchNone [] "r".toList fsRDF).tree = true ∧
    nonEncUnsel encAll
      ((toggleApp encAll (initApp encAll matchNone [] "r".toList fsRDF) []
        (some false)).tree) = true := by
  have h := c3_directory_toggle encAll matchNone [] "r".toList fsRDF
    (initApp encAll matchNone [] "r".toList fsRDF) Reachable.init []
    (initApp encAll matchNone [] "r".toList fsRDF).tree (by simp [nodeAt])
    (by decide) (by decide) false
    ((toggleApp encAll (initApp encAll matchNone [] "r".toList fsRDF) []
      (some false)).tree) (by simp [nodeAt])
  exact h

/-- Counterexample to C3 as stated: deselect the file `f` directly, then
toggle the root Directory to `true`; the root already holds
`selected = true`, so the propagation is pruned at the root and the
encodable file `f` stays unselected — not every encodable File in the
subtree ends at the target state. -/
theorem c3_counterexample :
    Reachable encAll matchNone [] "r".toList fsRF
      (toggleApp encAll
        (toggleApp encAll (initApp encAll matchNone [] "r".toList fsRF) [0] (some false))
        [] (some true)) ∧
    ((toggleApp encAll
        (toggleApp encAll (initApp encAll matchNone [] "r".toList fsRF) [0] (some false))
        [] (some true)).tree.kind = NKind.dir) ∧
    allEncFilesSel encAll
      (toggleApp encAll
        (toggleApp encAll (initApp encAll matchNone [] "r".toList fsRF) [0] (some false))
        [] (some true)).tree true = false :=
  ⟨Reachable.step _ [] (some true) (Reachable.step _ [0] (some false) Reachable.init),
   by decide, by decide⟩

mutual
/-- Every Directory node's `size` equals the sum of its children's
`size` fields, recursively. -/
def dirSizesOk : Node → Bool
  | .mk _ _ _ _ NKind.file _ _ _ _ _ => true
  | .mk _ _ _ _ NKind.dir _ sz ch _ _ => (sz == sizeSum ch) && dirSizesOkList ch

def dirSizesOkList : NodeList → Bool
  | .nil => true
  | .cons n rest => dirSizesOk n && dirSizesOkList rest
end

mutual
theorem build_dirSizes (encFn : List Char → Bool)
    (matchFn : List Char → List Char → Bool) (excl : List (List Char))
    (path : List Char) (e : FSEntry) (depth : Nat) :
    dirSizesOk (build encFn matchFn excl path e depth).1 = true := by
  cases e with
  | file nm sz =>
    by_cases henc : encFn path = true <;> simp [build, henc, dirSizesOk]
  | dir nm entries =>
    have h := buildList_dirSizes encFn matchFn excl path entries depth
    simp [build, dirSizesOk, h]

theorem buildList_dirSizes (encFn : List Char → Bool)
    (matchFn : List Char → List Char → Bool) (excl : List (List Char))
    (parentPath : List Char) (es : FSList) (depth : Nat) :
    dirSizesOkList (buildList encFn matchFn excl parentPath es depth).1 = true := by
  cases es with
  | nil => simp [buildList, dirSizesOkList]
  | cons e rest =>
    have h1 := build_dirSizes encFn matchFn excl (joinPath parentPath e.fsname) e (depth + 1)
    have h2 := buildList_dirSizes encFn matchFn excl parentPath rest depth
    by_cases hex : (depth == 0 && anyMatch matchFn e.fsname excl) = true <;>
      simp [buildList, hex, dirSizesOkList, h1, h2]
end

/-- C6 (amended): in every tree `_build_tree` returns, a File node's
`size` is its `os.path.getsize` byte length — whether or not the file is
encodable — and every Directory node's `size` is the sum of its
children's `size` fields. -/
theorem c6_sizes (encFn : List Char → Bool)
    (matchFn : List Char → List Char → Bool) (excl : List (List Char))
    (path : List Char) (e : FSEntry) (depth : Nat) :
    dirSizesOk (build encFn matchFn excl path e depth).1 = true ∧
    (∀ nm sz, e = FSEntry.file nm sz →
      (build encFn matchFn excl path e depth).1.size = sz) := by
  refine ⟨build_dirSizes encFn matchFn excl path e depth, ?_⟩
  intro nm sz he
  subst he
  by_cases henc : encFn path = true <;> simp [build, henc, Node.size]

/-- Witness for C6: the 5-byte non-encodable file scenario evaluated
through the theorem. -/
theorem c6_sizes_witness :
    dirSizesOk (build (fun _ => false) matchNone [] "r/b".toList
      (FSEntry.file "b".toList 5) 1).1 = true ∧
    (build (fun _ => false) matchNone [] "r/b".toList
      (FSEntry.file "b".toList 5) 1).1.size = 5 :=
  ⟨(c6_sizes (fun _ => false) matchNone [] "r/b".toList (FSEntry.file "b".toList 5) 1).1,
   (c6_sizes (fun _ => false) matchNone [] "r/b".toList (FSEntry.file "b".toList 5) 1).2
     "b".toList 5 rfl⟩

/-- Counterexample to C6 as stated: `_build_tree` assigns a
non-encodable File its real byte length (`os.path.getsize`), not 0 —
the built node for a 5-byte binary file reports `size = 5`. -/
theorem c6_counterexample :
    ((nodeAt (build (fun _ => false) matchNone [] "r".toList
        (FSEntry.dir "r".toList (FSList.cons (FSEntry.file "b".toList 5) FSList.nil))
        0).1 [0]).map (fun n => (fun _ => false : List Char → Bool) n.path)
      = some false) ∧
    ((nodeAt (build (fun _ => false) matchNone [] "r".toList
        (FSEntry.dir "r".toList (FSList.cons (FSEntry.file "b".toList 5) FSList.nil))
        0).1 [0]).map Node.kind = some NKind.file) ∧
    ¬((nodeAt (build (fun _ => false) matchNone [] "r".toList
        (FSEntry.dir "r".toList (FSList.cons (FSEntry.file "b".toList 5) FSList.nil))
        0).1 [0]).map Node.size = some 0) :=
  ⟨by decide, by decide, by decide⟩

/-- Root-level exclusion as a listing transformation, stated from the
spec's words: drop exactly the immediate entries whose name matches
some exclusion pattern. -/
def fsFilterExcl (matchFn : List Char → List Char → Bool)
    (excl : List (List Char)) : FSList → FSList
  | .nil => .nil
  | .cons e rest =>
    if anyMatch matchFn e.fsname excl then fsFilterExcl matchFn excl rest
    else .cons e (fsFilterExcl matchFn excl rest)

mutual
theorem build_excl_indep (encFn : List Char → Bool)
    (matchFn : List Char → List Char → Bool) (excl excl' : List (List Char))
    (path : List Char) (e : FSEntry) (depth : Nat) (hd : depth ≠ 0) :
    build encFn matchFn excl path e depth = build encFn matchFn excl' path e depth := by
  cases e with
  | file nm sz => simp [build]
  | dir nm entries =>
    have h := buildList_excl_indep encFn matchFn excl excl' path entries depth hd
    simp [build, h]

theorem buildList_excl_indep (encFn : List Char → Bool)
    (matchFn : List Char → List Char → Bool) (excl excl' : List (List Char))
    (parentPath : List Char) (es : FSList) (depth : Nat) (hd : depth ≠ 0) :
    buildList encFn matchFn excl parentPath es depth
      = buildList encFn matchFn excl' parentPath es depth := by
  cases es with
  | nil => simp [buildList]
  | cons e rest =>
    have hdz : (depth == 0) = false := by simpa using hd
    have h1 := build_excl_indep encFn matchFn excl excl'
      (joinPath parentPath e.fsname) e (depth + 1) (by omega)
    have h2 := buildList_excl_indep encFn matchFn excl excl' parentPath rest depth hd
    simp [buildList, hdz, h1, h2]
end

theorem buildList_root_filter (encFn : List Char → Bool)
    (matchFn : List Char → List Char → Bool) (excl : List (List Char))
    (parentPath : List Char) (es : FSList) :
    buildList encFn matchFn excl parentPath es 0
      = buildList encFn matchFn [] parentPath (fsFilterExcl matchFn excl es) 0 := by
  cases es with
  | nil => simp [buildList, fsFilterExcl]
  | cons e rest =>
    have ih := buildList_root_filter encFn matchFn excl parentPath rest
    by_cases hex : anyMatch matchFn e.fsname excl = true
    · simp [buildList, fsFilterExcl, hex, ih]
    · have hex' : anyMatch matchFn e.fsname excl = false := by simpa using hex
      have h1 := build_excl_indep encFn matchFn excl []
        (joinPath parentPath e.fsname) e 1 (by omega)
      simp [buildList, fsFilterExcl, hex', anyMatch, ih, h1]

/-- C7: exclusion patterns act exactly on the root's immediate children
— the root's built children are those of the listing with every
name-matching entry (and thereby its whole subtree) dropped — and the
patterns have no effect anywhere below the root: a build at any nonzero
depth is independent of the exclusion list, so a deeper entry with a
matching name is still included. -/
theorem c7_exclusion (encFn : List Char → Bool)
    (matchFn : List Char → List Char → Bool) (excl excl' : List (List Char))
    (path : List Char) (nm : List Char) (entries : FSList)
    (e : FSEntry) (depth : Nat) (hd : depth ≠ 0) :
    (build encFn matchFn excl path (FSEntry.dir nm entries) 0).1.children
      = (buildList encFn matchFn [] path (fsFilterExcl matchFn excl entries) 0).1 ∧
    build encFn matchFn excl path e depth = build encFn matchFn excl' path e depth := by
  constructor
  · have h := buildList_root_filter encFn matchFn excl path entries
    simp [build, Node.children, h]
  · exact build_excl_indep encFn matchFn excl excl' path e depth hd

/-- Witness for C7: pattern `sub` at the root excludes the `sub`
directory from the root listing, while the same entry built at depth 1
is untouched by the pattern list. -/
theorem c7_exclusion_witness :
    (build encAll matchEq ["sub".toList] "r".toList
        (FSEntry.dir "r".toList
          (FSList.cons (FSEntry.dir "sub".toList
              (FSList.cons (FSEntry.file "c.txt".toList 5) FSList.nil))
            (FSList.cons (FSEntry.file "a.txt".toList 10) FSList.nil))) 0).1.children
      = (buildList encAll matchEq [] "r".toList
          (fsFilterExcl matchEq ["sub".toList]
            (FSList.cons (FSEntry.dir "sub".toList
                (FSList.cons (FSEntry.file "c.txt".toList 5) FSList.nil))
              (FSList.cons (FSEntry.file "a.txt".toList 10) FSList.nil))) 0).1 ∧
    build encAll matchEq ["sub".toList] "r".toList
        (FSEntry.dir "sub".toList (FSList.cons (FSEntry.file "c.txt".toList 5) FSList.nil)) 1
      = build encAll matchEq [] "r".toList
          (FSEntry.dir "sub".toList (FSList.cons (FSEntry.file "c.txt".toList 5) FSList.nil)) 1 :=
  c7_exclusion encAll matchEq ["sub".toList] [] "r".toList "r".toList
    (FSList.cons (FSEntry.dir "sub".toList
        (FSList.cons (FSEntry.file "c.txt".toList 5) FSList.nil))
      (FSList.cons (FSEntry.file "a.txt".toList 10) FSList.nil))
    (FSEntry.dir "sub".toList (FSList.cons (FSEntry.file "c.txt".toList 5) FSList.nil))
    1 (by omega)

/-- C10: the decodability probe is total at its public interface — for
every modeled filesystem and every path (nonexistent and unreadable
paths are filesystems answering `ioError`), `is_encodable` and
`is_text_file` return a boolean and never propagate an exception: every
read failure (I/O or decode) is absorbed and reported as `false`. -/
theorem c10_probe_total (fsys : List Char → Option PyExn) (p : List Char) :
    (is_encodable fsys p = Except.ok true ∨ is_encodable fsys p = Except.ok false) ∧
    (∀ e : PyExn, fsys p = some e → is_encodable fsys p = Except.ok false) ∧
    is_text_file fsys p = is_encodable fsys p := by
  refine ⟨?_, ?_, ?_⟩
  · cases h : fsys p with
    | none => left; simp [is_encodable, tryRead, h]
    | some e => right; cases e <;> simp [is_encodable, tryRead, h]
  · intro e he
    cases e <;> simp [is_encodable, tryRead, he]
  · cases h : fsys p with
    | none => simp [is_encodable, is_text_file, tryRead, h]
    | some e => cases e <;> simp [is_encodable, is_text_file, tryRead, h]

/-- Witness for C10 at a concrete input: a filesystem that raises
`IOError` on every path (e.g. the path does not exist). -/
theorem c10_probe_total_witness :
    is_encodable (fun _ => some PyExn.ioError) "missing.bin".toList
      = Except.ok false :=
  (c10_probe_total (fun _ => some PyExn.ioError) "missing.bin".toList).2.1
    PyExn.ioError rfl

/-!
String lemmas for the codec proofs.
-/

theorem startsWith_iff (d x : List Char) :
    startsWith d x = true ↔ ∃ t, x = d ++ t := by
  induction d generalizing x with
  | nil => simp [startsWith]
  | cons a as ih =>
    cases x with
    | nil => simp [startsWith]
    | cons c cs =>
      simp only [startsWith, Bool.and_eq_true, beq_iff_eq, ih, List.cons_append,
        List.cons.injEq]
      constructor
      · rintro ⟨rfl, t, rfl⟩; exact ⟨t, rfl, rfl⟩
      · rintro ⟨t, rfl, rfl⟩; exact ⟨rfl, t, rfl⟩

theorem dropWhile_is_suffix (p : Char → Bool) (l : List Char) :
    ∃ u, l = u ++ l.dropWhile p := by
  induction l with
  | nil => exact ⟨[], rfl⟩
  | cons c cs ih =>
    by_cases hc : p c = true
    · obtain ⟨u, hu⟩ := ih
      exact ⟨c :: u, by simp [List.dropWhile, hc]; exact hu⟩
    · exact ⟨[], by simp [List.dropWhile, hc]⟩

theorem pyRStrip_trunc (y : List Char) : ∃ t, y = pyRStrip y ++ t := by
  obtain ⟨u, hu⟩ := dropWhile_is_suffix isPySpace y.reverse
  refine ⟨u.reverse, ?_⟩
  have := congrArg List.reverse hu
  simpa [pyRStrip] using this

theorem startsWith_pyStrip (d x : List Char)
    (h : startsWith d (pyStrip x) = true) : startsWith d (pyLStrip x) = true := by
  rw [startsWith_iff] at h ⊢
  obtain ⟨t, ht⟩ := h
  obtain ⟨u, hu⟩ := pyRStrip_trunc (pyLStrip x)
  exact ⟨t ++ u, by rw [hu]; rw [pyStrip] at ht; rw [ht]; simp⟩

/-- C5: on any input that — after line-ending normalization and trimming
of leading whitespace — does not begin with the `$$FILE` marker,
`fdl_to_dir` raises `FormatError` (`ValueError` in the source) before
creating any file or directory: the result is the error value and the
created-file list is empty. -/
theorem c5_format_error (s : List Char)
    (h : startsWith MARKER (pyLStrip (pyNormalize s)) = false) :
    fdl_to_dir s = Except.error () := by
  have hstrip : startsWith MARKER (pyStrip (pyNormalize s)) = false := by
    by_cases hs : startsWith MARKER (pyStrip (pyNormalize s)) = true
    · have := startsWith_pyStrip MARKER (pyNormalize s) hs
      rw [this] at h; cases h
    · simpa using hs
  simp [fdl_to_dir, hstrip]

/-- Witness for C5: decoding the plain text `hello` fails with the
format error and creates nothing. -/
theorem c5_format_error_witness : fdl_to_dir "hello".toList = Except.error () :=
  c5_format_error "hello".toList (by decide)

theorem processParts_append (a b : List (List Char)) :
    processParts (a ++ b) = processParts a ++ processParts b := by
  induction a with
  | nil => simp [processParts]
  | cons part rest ih =>
    by_cases h1 : (pyStrip part).isEmpty = true
    · simp [processParts, h1, ih]
    · by_cases h2 : (pyStrip (splitFirstNl part).1).isEmpty = true <;>
        simp [processParts, h1, h2, ih]

/-- C8: a record whose path is empty after trimming is skipped, not
fatal — the decode loop produces exactly the files of the remaining
records, unchanged, and once the marker check has passed the decode
always returns its created-file list (it never raises because of a
malformed record). -/
theorem c8_empty_path_skipped :
    (∀ (parts1 parts2 : List (List Char)) (bad : List Char),
      pyStrip (splitFirstNl bad).1 = [] →
      processParts (parts1 ++ bad :: parts2) = processParts (parts1 ++ parts2)) ∧
    (∀ s : List Char, startsWith MARKER (pyStrip (pyNormalize s)) = true →
      fdl_to_dir s = Except.ok (processParts
        (splitDelim (if startsWith ['\n'] (pyNormalize s) then pyNormalize s
          else '\n' :: pyNormalize s)).tail)) := by
  constructor
  · intro parts1 parts2 bad hbad
    have hskip : processParts (bad :: parts2) = processParts parts2 := by
      by_cases h1 : (pyStrip bad).isEmpty = true
      · simp [processParts, h1]
      · simp [processParts, h1, hbad]
    rw [processParts_append, processParts_append, hskip]
  · intro s hs
    simp [fdl_to_dir, hs]

/-- Witness for C8: a block whose middle record has a whitespace-only
path decodes to the two good records around it. -/
theorem c8_empty_path_skipped_witness :
    processParts (["p\nhello".toList] ++ " \ncontent".toList :: ["q\nworld".toList])
      = processParts (["p\nhello".toList] ++ ["q\nworld".toList]) ∧
    fdl_to_dir "$$FILE a\nhi".toList = Except.ok (processParts
      (splitDelim (if startsWith ['\n'] (pyNormalize "$$FILE a\nhi".toList)
        then pyNormalize "$$FILE a\nhi".toList
        else '\n' :: pyNormalize "$$FILE a\nhi".toList)).tail) :=
  ⟨c8_empty_path_skipped.1 ["p\nhello".toList] ["q\nworld".toList]
      " \ncontent".toList (by decide),
   c8_empty_path_skipped.2 "$$FILE a\nhi".toList (by decide)⟩

/-- Every line-break character in the string is a plain `'\n'`. -/
def onlyNlB (s : List Char) : Bool := s.all fun c => !isPyLineBreak c || c == '\n'

/-- The string contains no line-break character at all. -/
def noBreakB (s : List Char) : Bool := s.all fun c => !isPyLineBreak c

/-- The string ends with a `'\n'`. -/
def endsNlB (s : List Char) : Bool := s.getLast? == some '\n'

/-- Remove a single trailing `'\n'` when present: the effect of
`"\n".join(s.splitlines())` on a string whose breaks are all `'\n'`. -/
def stripOneNl (s : List Char) : List Char := if endsNlB s then s.dropLast else s

theorem joinWith_cons_of_ne (sep x : List Char) (L : List (List Char)) (h : L ≠ []) :
    joinWith sep (x :: L) = x ++ sep ++ joinWith sep L := by
  cases L with
  | nil => exact absurd rfl h
  | cons y rest => simp [joinWith]

theorem splitlinesAux_nl (acc rest : List Char) :
    splitlinesAux acc ('\n' :: rest) = acc.reverse :: splitlinesAux [] rest := by
  cases rest with
  | nil => simp [splitlinesAux, isPyLineBreak]
  | cons d t => simp [splitlinesAux, isPyLineBreak]

theorem splitlinesAux_other (acc rest : List Char) (c : Char)
    (hnb : isPyLineBreak c = false) :
    splitlinesAux acc (c :: rest) = splitlinesAux (c :: acc) rest := by
  have hcr : (c == '\r') = false := by
    by_cases h : c = '\r'
    · rw [h] at hnb; simp [isPyLineBreak] at hnb
    · simpa using h
  cases rest with
  | nil => simp [splitlinesAux, hnb]
  | cons d t => simp [splitlinesAux, hcr, hnb]

theorem splitlinesAux_ne_nil (acc s : List Char) (hs : s ≠ []) :
    splitlinesAux acc s ≠ [] := by
  cases s with
  | nil => exact absurd rfl hs
  | cons c rest =>
    cases rest with
    | nil =>
      by_cases hb : isPyLineBreak c = true <;> simp [splitlinesAux, hb]
    | cons d t =>
      by_cases hcr : (c == '\r' && d == '\n') = true
      · simp [splitlinesAux, hcr]
      · by_cases hb : isPyLineBreak c = true
        · simp [splitlinesAux, hcr, hb]
        · have hb' : isPyLineBreak c = false := by simpa using hb
          have heq := splitlinesAux_other acc (d :: t) c hb'
          rw [heq]
          exact splitlinesAux_ne_nil (c :: acc) (d :: t) (by simp)

theorem endsNl_cons (c : Char) (r : List Char) (h : r ≠ []) :
    endsNlB (c :: r) = endsNlB r := by
  cases r with
  | nil => exact absurd rfl h
  | cons d t => simp [endsNlB]

theorem stripOneNl_cons (c : Char) (r : List Char) (h : r ≠ []) :
    stripOneNl (c :: r) = c :: stripOneNl r := by
  unfold stripOneNl
  rw [endsNl_cons c r h]
  by_cases he : endsNlB r = true
  · simp only [he, if_true]
    cases r with
    | nil => exact absurd rfl h
    | cons d t => simp
  · simp [he]

theorem joinSplitlinesAux (s acc : List Char) (h : onlyNlB s = true) :
    joinWith ['\n'] (splitlinesAux acc s) = acc.reverse ++ stripOneNl s := by
  cases s with
  | nil =>
    cases acc with
    | nil => simp [splitlinesAux, joinWith, stripOneNl, endsNlB]
    | cons a t => simp [splitlinesAux, joinWith, stripOneNl, endsNlB]
  | cons c rest =>
    have hc1 : isPyLineBreak c = true → c = '\n' := by
      simp [onlyNlB] at h
      intro hb
      rcases h.1 with hnb | heq
      · rw [hb] at hnb; cases hnb
      · exact heq
    have hrest : onlyNlB rest = true := by
      simp [onlyNlB] at h ⊢
      intro a ha
      exact h.2 a ha
    by_cases hcn : c = '\n'
    · subst hcn
      rw [splitlinesAux_nl]
      cases hrest' : rest with
      | nil =>
        simp [splitlinesAux, joinWith, stripOneNl, endsNlB]
      | cons d t =>
        rw [← hrest']
        have hne : rest ≠ [] := by rw [hrest']; simp
        rw [joinWith_cons_of_ne _ _ _ (splitlinesAux_ne_nil [] rest hne)]
        rw [joinSplitlinesAux rest [] hrest]
        rw [stripOneNl_cons _ _ hne]
        simp
    · have hnb : isPyLineBreak c = false := by
        by_cases hb : isPyLineBreak c = true
        · exact absurd (hc1 hb) hcn
        · simpa using hb
      rw [splitlinesAux_other acc rest c hnb]
      rw [joinSplitlinesAux rest (c :: acc) hrest]
      cases hrest' : rest with
      | nil =>
        simp [stripOneNl, endsNlB, hcn]
      | cons d t =>
        rw [← hrest']
        have hne : rest ≠ [] := by rw [hrest']; simp
        rw [stripOneNl_cons _ _ hne]
        simp

/-- `"\n".join(s.splitlines())` on a string whose only break characters
are `'\n'` removes exactly one trailing newline, if present. -/
theorem pyNormalize_onlyNl (s : List Char) (h : onlyNlB s = true) :
    pyNormalize s = stripOneNl s := by
  have := joinSplitlinesAux s [] h
  simpa [pyNormalize, pySplitlines] using this

/-- Occurrence test: some contiguous run of `l` equals `d` (Python's
`d in l` for strings). -/
def hasSeq (d : List Char) : List Char → Bool
  | [] => d.isEmpty
  | c :: rest => startsWith d (c :: rest) || hasSeq d rest

theorem startsWith_append_self (d t : List Char) : startsWith d (d ++ t) = true := by
  rw [startsWith_iff]; exact ⟨t, rfl⟩

theorem startsWith_take (d x : List Char) (h : startsWith d x = true) :
    x.take d.length = d := by
  rw [startsWith_iff] at h
  obtain ⟨t, rfl⟩ := h
  simp [List.take_append_eq_append_take]

theorem startsWith_mono_left (d x y : List Char)
    (h : startsWith d (x ++ y) = true) (hl : d.length ≤ x.length) :
    startsWith d x = true := by
  have ht := startsWith_take d (x ++ y) h
  have h0 : d.length - x.length = 0 := by omega
  rw [List.take_append_eq_append_take, h0, List.take_zero, List.append_nil] at ht
  rw [startsWith_iff]
  refine ⟨x.drop d.length, ?_⟩
  conv_lhs => rw [← List.take_append_drop d.length x]
  rw [ht]

theorem startsWith_split (d x y : List Char)
    (h : startsWith d (x ++ y) = true) (hl : x.length ≤ d.length) :
    startsWith (d.drop x.length) y = true ∧ d.take x.length = x := by
  rw [startsWith_iff] at h
  obtain ⟨t, ht⟩ := h
  have h0 : x.length - d.length = 0 := by omega
  have htake : d.take x.length = x := by
    have hh := congrArg (List.take x.length) ht
    rw [List.take_append_eq_append_take, List.take_append_eq_append_take, h0,
      List.take_zero, List.append_nil, List.take_length, Nat.sub_self,
      List.take_zero, List.append_nil] at hh
    exact hh.symm
  have hdrop : y = d.drop x.length ++ t := by
    have hh := congrArg (List.drop x.length) ht
    rw [List.drop_append_eq_append_drop, List.drop_append_eq_append_drop, h0,
      List.drop_zero, List.drop_length, List.nil_append] at hh
    simpa using hh
  exact ⟨by rw [startsWith_iff]; exact ⟨t, hdrop⟩, htake⟩

theorem DELIM_length : DELIM.length = 8 := by decide

theorem DELIM_no_border : ∀ k, k < 8 → 0 < k → DELIM.drop k ≠ DELIM.take (8 - k) := by
  decide

theorem startsWith_hasSeq (d s : List Char) (hne : s ≠ [])
    (h : startsWith d s = true) : hasSeq d s = true := by
  cases s with
  | nil => exact absurd rfl hne
  | cons c rest => simp [hasSeq, h]

theorem not_startsWith_mid (r s : List Char) (h : hasSeq DELIM r = false)
    (hr : r ≠ []) : startsWith DELIM (r ++ DELIM ++ s) = false := by
  by_cases hsw : startsWith DELIM (r ++ DELIM ++ s) = true
  · exfalso
    by_cases hlen : DELIM.length ≤ r.length
    · have := startsWith_mono_left DELIM r (DELIM ++ s) (by simpa using hsw) hlen
      rw [startsWith_hasSeq DELIM r hr this] at h
      cases h
    · have hl : r.length ≤ DELIM.length := by omega
      have hsp := startsWith_split DELIM r (DELIM ++ s) (by simpa using hsw) hl
      have h2 : startsWith (DELIM.drop r.length) DELIM = true := by
        refine startsWith_mono_left _ DELIM s hsp.1 ?_
        simp
      have h3 : DELIM.take (DELIM.drop r.length).length = DELIM.drop r.length :=
        startsWith_take _ DELIM h2
      have h4 : (DELIM.drop r.length).length = 8 - r.length := by
        simp [DELIM_length]
      rw [h4] at h3
      have h5 : 0 < r.length := by
        cases r with
        | nil => exact absurd rfl hr
        | cons a t => simp
      have h6 : r.length < 8 := by
        rw [DELIM_length] at hlen; omega
      exact DELIM_no_border r.length h6 h5 h3.symm
  · simpa using hsw

theorem splitDelimF_irrel (f1 : Nat) : ∀ (f2 : Nat) (acc s : List Char),
    s.length < f1 → s.length < f2 → splitDelimF f1 acc s = splitDelimF f2 acc s := by
  induction f1 with
  | zero => intro f2 acc s h1 _; omega
  | succ g ih =>
    intro f2 acc s h1 h2
    cases f2 with
    | zero => omega
    | succ g2 =>
      cases s with
      | nil => simp [splitDelimF]
      | cons c rest =>
        by_cases hsw : startsWith DELIM (c :: rest) = true
        · simp only [splitDelimF, hsw, if_true]
          have hlen : (List.drop 7 rest).length < g := by
            simp at h1 ⊢; omega
          have hlen2 : (List.drop 7 rest).length < g2 := by
            simp at h2 ⊢; omega
          rw [ih g2 [] (List.drop 7 rest) hlen hlen2]
        · have hsw' : startsWith DELIM (c :: rest) = false := by simpa using hsw
          simp only [splitDelimF, hsw', Bool.false_eq_true, if_false]
          have hlen : rest.length < g := by simp at h1; omega
          have hlen2 : rest.length < g2 := by simp at h2; omega
          exact ih g2 (c :: acc) rest hlen hlen2

theorem DELIM_cons : DELIM = '\n' :: MARKERSP := by decide

theorem splitDelimF_delim (fuel : Nat) (acc s : List Char) :
    splitDelimF (fuel + 1) acc (DELIM ++ s) = acc.reverse :: splitDelimF fuel [] s := by
  have hsw : startsWith DELIM (DELIM ++ s) = true := startsWith_append_self DELIM s
  have hshape : DELIM ++ s = '\n' :: (MARKERSP ++ s) := by rw [DELIM_cons]; rfl
  rw [hshape] at hsw ⊢
  simp only [splitDelimF, hsw, if_true]
  have hdrop : List.drop 7 (MARKERSP ++ s) = s := by
    have h7 : MARKERSP.length = 7 := by decide
    rw [← h7, List.drop_left]
  rw [hdrop]

/-- `s.split("\n$$FILE ")` with an explicit accumulator (the canonical
fuel value spelled out). -/
def splitDelimAt (acc s : List Char) : List (List Char) :=
  splitDelimF (s.length + 1) acc s

theorem splitDelim_eq_at (s : List Char) : splitDelim s = splitDelimAt [] s := rfl

theorem splitDelimAt_delim (acc s : List Char) :
    splitDelimAt acc (DELIM ++ s) = acc.reverse :: splitDelimAt [] s := by
  unfold splitDelimAt
  have hlen : (DELIM ++ s).length + 1 = s.length + 8 + 1 := by
    simp [DELIM_length]; omega
  rw [hlen]
  rw [splitDelimF_delim (s.length + 8) acc s]
  rw [splitDelimF_irrel (s.length + 8) (s.length + 1) [] s (by omega) (by omega)]

theorem splitDelimAt_noDelim (r : List Char) : ∀ (acc : List Char),
    hasSeq DELIM r = false → splitDelimAt acc r = [acc.reverse ++ r] := by
  induction r with
  | nil => intro acc _; simp [splitDelimAt, splitDelimF]
  | cons c rest ih =>
    intro acc h
    simp only [hasSeq, Bool.or_eq_false_iff] at h
    have hstep : splitDelimAt acc (c :: rest) = splitDelimAt (c :: acc) rest := by
      unfold splitDelimAt
      simp only [List.length_cons]
      simp only [splitDelimF, h.1, Bool.false_eq_true, if_false]
    rw [hstep, ih (c :: acc) h.2]
    simp

theorem splitDelimAt_mid (r : List Char) : ∀ (acc s : List Char),
    hasSeq DELIM r = false →
    splitDelimAt acc (r ++ DELIM ++ s) = (acc.reverse ++ r) :: splitDelimAt [] s := by
  induction r with
  | nil =>
    intro acc s _
    simpa using splitDelimAt_delim acc s
  | cons c rest ih =>
    intro acc s h
    simp only [hasSeq, Bool.or_eq_false_iff] at h
    have hsw : startsWith DELIM ((c :: rest) ++ DELIM ++ s) = false :=
      not_startsWith_mid (c :: rest) s (by simp [hasSeq, h.1, h.2]) (by simp)
    have hstep : splitDelimAt acc ((c :: rest) ++ DELIM ++ s)
        = splitDelimAt (c :: acc) (rest ++ DELIM ++ s) := by
      unfold splitDelimAt
      have hshape : (c :: rest) ++ DELIM ++ s = c :: (rest ++ DELIM ++ s) := by simp
      rw [hshape] at hsw ⊢
      simp only [List.length_cons]
      simp only [splitDelimF, hsw, Bool.false_eq_true, if_false]
    rw [hstep, ih (c :: acc) s h.2]
    simp

theorem splitDelimAt_join_inner (ps : List (List Char)) :
    ps ≠ [] → (∀ x ∈ ps, hasSeq DELIM x = false) →
    splitDelimAt [] (joinWith DELIM ps) = ps := by
  induction ps with
  | nil => intro h _; exact absurd rfl h
  | cons x rest ih =>
    intro _ hall
    cases rest with
    | nil =>
      simp only [joinWith]
      rw [splitDelimAt_noDelim x [] (hall x (by simp))]
      simp
    | cons y t =>
      rw [joinWith_cons_of_ne DELIM x (y :: t) (by simp)]
      have hmid := splitDelimAt_mid x [] (joinWith DELIM (y :: t)) (hall x (by simp))
      rw [hmid]
      rw [ih (by simp) (fun z hz => hall z (by simp [hz]))]
      simp

theorem splitDelimAt_join (acc : List Char) (ps : List (List Char))
    (hne : ps ≠ []) (hall : ∀ x ∈ ps, hasSeq DELIM x = false) :
    splitDelimAt acc (DELIM ++ joinWith DELIM ps) = acc.reverse :: ps := by
  rw [splitDelimAt_delim, splitDelimAt_join_inner ps hne hall]

theorem noBreak_ne_nl (c : Char) (h : isPyLineBreak c = false) : c ≠ '\n' := by
  intro hc; rw [hc] at h; simp [isPyLineBreak] at h

theorem hasSeq_noNl (x : List Char) (h : ∀ c ∈ x, c ≠ '\n') :
    hasSeq DELIM x = false := by
  induction x with
  | nil => simp [hasSeq, DELIM]
  | cons c rest ih =>
    have hc : c ≠ '\n' := h c (by simp)
    have hsw : startsWith DELIM (c :: rest) = false := by
      rw [DELIM_cons]
      simp [startsWith]
      intro he
      exact absurd he.symm hc
    simp [hasSeq, hsw, ih (fun a ha => h a (by simp [ha]))]

theorem hasSeq_record (p c : List Char) (hp : noBreakB p = true)
    (hc1 : startsWith MARKERSP c = false) (hc2 : hasSeq DELIM c = false) :
    hasSeq DELIM (p ++ '\n' :: c) = false := by
  induction p with
  | nil =>
    have hsw : startsWith DELIM ('\n' :: c) = false := by
      rw [DELIM_cons]
      simpa [startsWith] using hc1
    simp [hasSeq, hsw, hc2]
  | cons a p' ih =>
    simp only [noBreakB, List.all_cons, Bool.and_eq_true] at hp
    have ha : a ≠ '\n' := noBreak_ne_nl a (by simpa using hp.1)
    have hsw : startsWith DELIM (a :: (p' ++ '\n' :: c)) = false := by
      rw [DELIM_cons]
      simp [startsWith]
      intro he
      exact absurd he.symm ha
    have hp' : noBreakB p' = true := by simpa [noBreakB] using hp.2
    have := ih hp'
    simpa [hasSeq, hsw, List.cons_append] using this

theorem splitFirstNl_mid (p c : List Char) (hp : ∀ a ∈ p, a ≠ '\n') :
    splitFirstNl (p ++ '\n' :: c) = (p, c) := by
  induction p with
  | nil => simp [splitFirstNl]
  | cons a p' ih =>
    have ha : (a == '\n') = false := by
      simpa using hp a (by simp)
    simp [splitFirstNl, ha, ih (fun x hx => hp x (by simp [hx]))]

theorem splitFirstNl_noNl (p : List Char) (hp : ∀ a ∈ p, a ≠ '\n') :
    splitFirstNl p = (p, []) := by
  induction p with
  | nil => simp [splitFirstNl]
  | cons a p' ih =>
    have ha : (a == '\n') = false := by
      simpa using hp a (by simp)
    simp [splitFirstNl, ha, ih (fun x hx => hp x (by simp [hx]))]

theorem pyRStrip_length_le (y : List Char) : (pyRStrip y).length ≤ y.length := by
  have := (List.dropWhile_sublist (p := isPySpace) (l := y.reverse)).length_le
  simpa [pyRStrip] using this

theorem pyStrip_self_head (a : Char) (t : List Char)
    (h : pyStrip (a :: t) = a :: t) : isPySpace a = false := by
  by_cases ha : isPySpace a = true
  · exfalso
    have hl : pyLStrip (a :: t) = pyLStrip t := by
      simp [pyLStrip, List.dropWhile, ha]
    have hlen : (pyStrip (a :: t)).length ≤ t.length := by
      rw [pyStrip, hl]
      calc (pyRStrip (pyLStrip t)).length ≤ (pyLStrip t).length :=
            pyRStrip_length_le _
        _ ≤ t.length := by
            have := (List.dropWhile_sublist (p := isPySpace) (l := t)).length_le
            simpa [pyLStrip] using this
    rw [h] at hlen
    simp at hlen
  · simpa using ha

theorem pyRStrip_eq_nil (y : List Char) (h : pyRStrip y = []) :
    ∀ c ∈ y, isPySpace c = true := by
  intro c hc
  have h2 : y.reverse.dropWhile isPySpace = [] := by
    have := congrArg List.reverse h
    simpa [pyRStrip] using this
  rw [List.dropWhile_eq_nil_iff] at h2
  exact h2 c (by simpa using hc)

theorem pyStrip_cons_ne_nil (a : Char) (t : List Char) (ha : isPySpace a = false) :
    pyStrip (a :: t) ≠ [] := by
  intro h
  have hl : pyLStrip (a :: t) = a :: t := by
    simp [pyLStrip, List.dropWhile, ha]
  rw [pyStrip, hl] at h
  have := pyRStrip_eq_nil (a :: t) h a (by simp)
  rw [this] at ha; cases ha

theorem noBreak_all_ne_nl (p : List Char) (hp : noBreakB p = true) :
    ∀ a ∈ p, a ≠ '\n' := by
  intro a ha
  simp [noBreakB] at hp
  exact noBreak_ne_nl a (by simpa using hp a ha)

theorem processParts_record (p c : List Char) (rest : List (List Char))
    (hp : noBreakB p = true) (hs : pyStrip p = p) (hne : p ≠ []) :
    processParts ((p ++ '\n' :: c) :: rest) = (p, c) :: processParts rest := by
  cases hp' : p with
  | nil => exact absurd hp' hne
  | cons a t =>
    rw [← hp']
    have ha : isPySpace a = false := pyStrip_self_head a t (by rw [← hp']; exact hs)
    have hstrip_ne : pyStrip (p ++ '\n' :: c) ≠ [] := by
      rw [hp']
      exact pyStrip_cons_ne_nil a (t ++ '\n' :: c) ha
    have hsf : splitFirstNl (p ++ '\n' :: c) = (p, c) :=
      splitFirstNl_mid p c (noBreak_all_ne_nl p hp)
    have hse : (pyStrip (p ++ '\n' :: c)).isEmpty = false := by
      cases hq : pyStrip (p ++ '\n' :: c) with
      | nil => exact absurd hq hstrip_ne
      | cons x xs => simp
    have hpe : (pyStrip p).isEmpty = false := by
      rw [hs, hp']; simp
    simp [processParts, hse, hsf, hs, hpe, hne]

theorem processParts_last (p : List Char) (hp : noBreakB p = true)
    (hs : pyStrip p = p) (hne : p ≠ []) :
    processParts [p] = [(p, [])] := by
  cases hp' : p with
  | nil => exact absurd hp' hne
  | cons a t =>
    rw [← hp']
    have ha : isPySpace a = false := pyStrip_self_head a t (by rw [← hp']; exact hs)
    have hstrip_ne : pyStrip p ≠ [] := by rw [hp']; exact pyStrip_cons_ne_nil a t ha
    have hsf : splitFirstNl p = (p, []) := splitFirstNl_noNl p (noBreak_all_ne_nl p hp)
    have hse : (pyStrip p).isEmpty = false := by
      cases hq : pyStrip p with
      | nil => exact absurd hq hstrip_ne
      | cons x xs => simp
    simp [processParts, hse, hsf, hs, hne]

/-- The record string a pair contributes to the split:
`relative_path ++ "\n" ++ content`. -/
def partStr (pr : List Char × List Char) : List Char := pr.1 ++ '\n' :: pr.2

theorem processParts_partStrs (prs : List (List Char × List Char))
    (h : ∀ pr ∈ prs, noBreakB pr.1 = true ∧ pyStrip pr.1 = pr.1 ∧ pr.1 ≠ []) :
    processParts (prs.map partStr) = prs := by
  induction prs with
  | nil => simp [processParts]
  | cons pr rest ih =>
    obtain ⟨h1, h2, h3⟩ := h pr (by simp)
    have := processParts_record pr.1 pr.2 (rest.map partStr) h1 h2 h3
    simp only [List.map_cons, partStr]
    rw [this, ih (fun x hx => h x (by simp [hx]))]

theorem fdlPartsOf_append (a b : List (List Char × List Char)) :
    fdlPartsOf (a ++ b) = fdlPartsOf a ++ fdlPartsOf b := by
  induction a with
  | nil => simp [fdlPartsOf]
  | cons pr rest ih =>
    cases pr with
    | mk p c => simp [fdlPartsOf, ih]

theorem dir_to_fdl_delim (pairs : List (List Char × List Char)) (hne : pairs ≠ []) :
    '\n' :: dir_to_fdl pairs = DELIM ++ joinWith DELIM (pairs.map partStr) := by
  induction pairs with
  | nil => exact absurd rfl hne
  | cons pr rest ih =>
    cases pr with
    | mk p c =>
      cases rest with
      | nil =>
        simp [dir_to_fdl, fdlPartsOf, joinWith, partStr, DELIM_cons, MARKERSP]
      | cons pr2 rest2 =>
        cases pr2 with
        | mk q d =>
          have hfne : fdlPartsOf ((q, d) :: rest2) ≠ [] := by simp [fdlPartsOf]
          have h1 : fdlPartsOf ((p, c) :: (q, d) :: rest2)
              = (MARKERSP ++ p) :: c :: fdlPartsOf ((q, d) :: rest2) := by
            simp [fdlPartsOf]
          have hstep : dir_to_fdl ((p, c) :: (q, d) :: rest2)
              = (MARKERSP ++ p) ++ '\n' :: (c ++ '\n' :: dir_to_fdl ((q, d) :: rest2)) := by
            rw [dir_to_fdl, h1]
            rw [joinWith_cons_of_ne _ _ _ (by simp [fdlPartsOf])]
            rw [joinWith_cons_of_ne _ _ _ hfne]
            rw [dir_to_fdl]
            simp
          rw [hstep, List.map_cons]
          rw [joinWith_cons_of_ne DELIM (partStr (p, c))
            (List.map partStr ((q, d) :: rest2)) (by simp)]
          have hih := ih (by simp)
          rw [show (MARKERSP ++ p) ++ '\n' :: (c ++ '\n' :: dir_to_fdl ((q, d) :: rest2))
              = (MARKERSP ++ p) ++ '\n' :: (c ++ ('\n' :: dir_to_fdl ((q, d) :: rest2)))
            from rfl]
          rw [hih]
          simp [partStr, DELIM_cons]

theorem joinWith_snoc_append (sep b : List Char) (X : List (List Char)) :
    ∀ a : List Char, joinWith sep (X ++ [a ++ b]) = joinWith sep (X ++ [a]) ++ b := by
  induction X with
  | nil => intro a; simp [joinWith]
  | cons x X' ih =>
    intro a
    rw [List.cons_append, List.cons_append]
    rw [joinWith_cons_of_ne _ _ _ (by simp)]
    rw [joinWith_cons_of_ne _ _ _ (by simp)]
    rw [ih a]
    simp

theorem joinWith_getLast (sep x : List Char) (X : List (List Char)) (hx : x ≠ []) :
    (joinWith sep (X ++ [x])).getLast? = x.getLast? := by
  induction X with
  | nil => simp [joinWith]
  | cons y X' ih =>
    rw [List.cons_append]
    rw [joinWith_cons_of_ne _ _ _ (by simp)]
    rw [List.append_assoc]
    rw [List.getLast?_append]
    rw [List.getLast?_append]
    rw [ih]
    cases hlast : x.getLast? with
    | none => exact absurd (List.getLast?_eq_none_iff.mp hlast) hx
    | some c => simp

theorem onlyNl_append (a b : List Char) :
    onlyNlB (a ++ b) = (onlyNlB a && onlyNlB b) := by
  simp [onlyNlB, List.all_append]

theorem noBreak_onlyNl (a : List Char) (h : noBreakB a = true) : onlyNlB a = true := by
  simp [noBreakB] at h
  simp [onlyNlB]
  intro c hc
  left
  simpa using h c hc

theorem onlyNl_joinWith (L : List (List Char)) (h : ∀ x ∈ L, onlyNlB x = true) :
    onlyNlB (joinWith ['\n'] L) = true := by
  induction L with
  | nil => simp [joinWith, onlyNlB]
  | cons x rest ih =>
    cases rest with
    | nil => simpa [joinWith] using h x (by simp)
    | cons y t =>
      rw [joinWith_cons_of_ne _ _ _ (by simp)]
      rw [onlyNl_append, onlyNl_append]
      have h1 := h x (by simp)
      have h2 := ih (fun z hz => h z (by simp [hz]))
      have h3 : onlyNlB ['\n'] = true := by decide
      simp [h1, h2, h3]

theorem MARKERSP_noBreak : noBreakB MARKERSP = true := by decide

theorem dir_to_fdl_onlyNl (pairs : List (List Char × List Char))
    (h : ∀ pr ∈ pairs, noBreakB pr.1 = true ∧ onlyNlB pr.2 = true) :
    onlyNlB (dir_to_fdl pairs) = true := by
  rw [dir_to_fdl]
  apply onlyNl_joinWith
  intro x hx
  induction pairs with
  | nil => simp [fdlPartsOf] at hx
  | cons pr rest ih =>
    cases pr with
    | mk p c =>
      obtain ⟨h1, h2⟩ := h (p, c) (by simp)
      simp only [fdlPartsOf, List.mem_cons] at hx
      rcases hx with hx | hx | hx
      · subst hx
        rw [onlyNl_append]
        simp [noBreak_onlyNl _ MARKERSP_noBreak, noBreak_onlyNl _ h1]
      · subst hx; exact h2
      · exact ih (fun q hq => h q (by simp [hq])) hx

theorem startsWith_marker_pyStrip (x : List Char)
    (h : startsWith MARKER x = true) : startsWith MARKER (pyStrip x) = true := by
  rw [startsWith_iff] at h
  obtain ⟨t, rfl⟩ := h
  have hM : MARKER = ['$', '$', 'F', 'I', 'L', 'E'] := by decide
  have hsp : isPySpace '$' = false := by decide
  have hspE : isPySpace 'E' = false := by decide
  have hlstrip : pyLStrip (MARKER ++ t) = MARKER ++ t := by
    rw [hM]
    simp [pyLStrip, List.dropWhile_cons, hsp]
  rw [pyStrip, hlstrip, pyRStrip]
  rw [List.reverse_append, List.dropWhile_append]
  by_cases hcase : (List.dropWhile isPySpace t.reverse).isEmpty = true
  · simp only [hcase, if_true]
    have hrev : List.dropWhile isPySpace MARKER.reverse = MARKER.reverse := by
      rw [hM]
      simp [List.dropWhile_cons, hspE]
    rw [hrev, List.reverse_reverse]
    rw [startsWith_iff]
    exact ⟨[], by simp⟩
  · have hcase' : (List.dropWhile isPySpace t.reverse).isEmpty = false := by
      simpa using hcase
    simp only [hcase', Bool.false_eq_true, if_false]
    rw [List.reverse_append, List.reverse_reverse]
    exact startsWith_append_self MARKER (List.dropWhile isPySpace t.reverse).reverse

theorem MARKERSP_split : MARKERSP = MARKER ++ [' '] := by decide

theorem decode_of_shape (s Z : List Char) (PS : List (List Char))
    (hnorm : pyNormalize s = MARKERSP ++ Z)
    (hZ : Z = joinWith DELIM PS) (hPSne : PS ≠ [])
    (hPSgood : ∀ x ∈ PS, hasSeq DELIM x = false) :
    fdl_to_dir s = Except.ok (processParts PS) := by
  have hmark : startsWith MARKER (MARKERSP ++ Z) = true := by
    rw [MARKERSP_split, List.append_assoc]
    exact startsWith_append_self MARKER ([' '] ++ Z)
  have hmark' : startsWith MARKER (pyStrip (MARKERSP ++ Z)) = true :=
    startsWith_marker_pyStrip _ hmark
  have hMS : MARKERSP = '$' :: "$FILE ".toList := by decide
  have hnl : startsWith ['\n'] (MARKERSP ++ Z) = false := by
    rw [hMS]
    simp [startsWith]
  have hsplit : splitDelim ('\n' :: (MARKERSP ++ Z)) = [] :: PS := by
    have hshape : '\n' :: (MARKERSP ++ Z) = DELIM ++ Z := by
      rw [DELIM_cons]; simp
    rw [splitDelim_eq_at, hshape, hZ]
    have := splitDelimAt_join [] PS hPSne hPSgood
    simpa using this
  simp only [fdl_to_dir, hnorm, hmark', if_true, hnl, Bool.false_eq_true, if_false]
  rw [hsplit]
  simp

/-- C1 (amended): decode(encode(pairs)) recovers the pairs exactly for
every nonempty sequence of (relativePath, content) pairs in which each
path equals its own whitespace-trim, is nonempty, and contains no
line-break character; each content contains no line-break character
other than `'\n'`, does not contain the sequence `"\n$$FILE "`, and does
not begin with `"$$FILE "`; and the last content does not end with a
`'\n'`.  The extra conditions beyond the claim are forced by the code:
the decoder's `splitlines`-based normalization rewrites every exotic
break character and eats one trailing newline of the block, and the
split on `"\n$$FILE "` also fires when a content merely begins with
`"$$FILE "` right after the joining newline. -/
theorem c1_roundtrip (pairs : List (List Char × List Char))
    (hne : pairs ≠ [])
    (hpath : ∀ pr ∈ pairs, pyStrip pr.1 = pr.1 ∧ pr.1 ≠ [] ∧ noBreakB pr.1 = true)
    (hcont : ∀ pr ∈ pairs, onlyNlB pr.2 = true ∧ startsWith MARKERSP pr.2 = false ∧
      hasSeq DELIM pr.2 = false)
    (hlast : ∀ pr, pairs.getLast? = some pr → pr.2.getLast? ≠ some '\n') :
    fdl_to_dir (dir_to_fdl pairs) = Except.ok pairs := by
  obtain ⟨front, lst, rfl⟩ : ∃ front lst, pairs = front ++ [lst] := by
    rcases List.eq_nil_or_concat pairs with h | ⟨L, b, h⟩
    · exact absurd h hne
    · exact ⟨L, b, by rw [h, List.concat_eq_append]⟩
  have hlst : lst.2.getLast? ≠ some '\n' := by
    apply hlast
    rw [List.getLast?_concat]
  have honly : onlyNlB (dir_to_fdl (front ++ [lst])) = true := by
    apply dir_to_fdl_onlyNl
    intro pr hpr
    exact ⟨(hpath pr hpr).2.2, (hcont pr hpr).1⟩
  have hdelim := dir_to_fdl_delim (front ++ [lst]) hne
  have hgood : ∀ x ∈ (front ++ [lst]).map partStr, hasSeq DELIM x = false := by
    intro x hx
    rw [List.mem_map] at hx
    obtain ⟨pr, hpr, rfl⟩ := hx
    exact hasSeq_record pr.1 pr.2 (hpath pr hpr).2.2 (hcont pr hpr).2.1 (hcont pr hpr).2.2
  by_cases hcl : lst.2 = []
  · -- the last content is empty: the block ends with the newline that
    -- follows the last path line, and normalization removes it
    have hps : (front ++ [lst]).map partStr
        = front.map partStr ++ [lst.1 ++ ['\n']] := by
      simp [partStr, hcl]
    have hsnoc : joinWith DELIM ((front ++ [lst]).map partStr)
        = joinWith DELIM (front.map partStr ++ [lst.1]) ++ ['\n'] := by
      rw [hps]
      exact joinWith_snoc_append DELIM ['\n'] (front.map partStr) lst.1
    have hblock : dir_to_fdl (front ++ [lst])
        = (MARKERSP ++ joinWith DELIM (front.map partStr ++ [lst.1])) ++ ['\n'] := by
      have h2 : '\n' :: dir_to_fdl (front ++ [lst])
          = '\n' :: ((MARKERSP ++ joinWith DELIM (front.map partStr ++ [lst.1])) ++ ['\n']) := by
        rw [hdelim, hsnoc, DELIM_cons]
        simp
      exact List.cons_injective h2
    have hnorm : pyNormalize (dir_to_fdl (front ++ [lst]))
        = MARKERSP ++ joinWith DELIM (front.map partStr ++ [lst.1]) := by
      rw [pyNormalize_onlyNl _ honly, hblock]
      unfold stripOneNl
      have hend : endsNlB ((MARKERSP ++ joinWith DELIM (front.map partStr ++ [lst.1])) ++ ['\n'])
          = true := by
        simp [endsNlB, List.getLast?_concat]
      rw [hend]
      simp [List.dropLast_concat]
    have hgood' : ∀ x ∈ front.map partStr ++ [lst.1], hasSeq DELIM x = false := by
      intro x hx
      rw [List.mem_append] at hx
      rcases hx with hx | hx
      · apply hgood
        rw [List.map_append]
        exact List.mem_append_left _ hx
      · rw [List.mem_singleton] at hx
        subst hx
        exact hasSeq_noNl lst.1
          (noBreak_all_ne_nl lst.1 (hpath lst (by simp)).2.2)
    have hdec := decode_of_shape (dir_to_fdl (front ++ [lst]))
      (joinWith DELIM (front.map partStr ++ [lst.1]))
      (front.map partStr ++ [lst.1]) hnorm rfl (by simp) hgood'
    rw [hdec]
    congr 1
    rw [processParts_append]
    rw [processParts_partStrs front (fun pr hpr =>
      ⟨(hpath pr (by simp [hpr])).2.2, (hpath pr (by simp [hpr])).1,
        (hpath pr (by simp [hpr])).2.1⟩)]
    rw [processParts_last lst.1 (hpath lst (by simp)).2.2
      (hpath lst (by simp)).1 (hpath lst (by simp)).2.1]
    have : lst = (lst.1, []) := by
      cases lst with
      | mk a b => simp at hcl; simp [hcl]
    rw [← this]
  · -- the last content is nonempty and does not end with a newline:
    -- normalization leaves the block untouched
    have hfp : fdlPartsOf (front ++ [lst])
        = (fdlPartsOf front ++ [MARKERSP ++ lst.1]) ++ [lst.2] := by
      rw [fdlPartsOf_append]
      cases lst with
      | mk a b => simp [fdlPartsOf]
    have hblock_last : (dir_to_fdl (front ++ [lst])).getLast? = lst.2.getLast? := by
      rw [dir_to_fdl, hfp]
      exact joinWith_getLast ['\n'] lst.2 (fdlPartsOf front ++ [MARKERSP ++ lst.1]) hcl
    have hends : endsNlB (dir_to_fdl (front ++ [lst])) = false := by
      simp [endsNlB, hblock_last]
      intro h
      exact absurd h hlst
    have hblock : dir_to_fdl (front ++ [lst])
        = MARKERSP ++ joinWith DELIM ((front ++ [lst]).map partStr) := by
      have h2 : '\n' :: dir_to_fdl (front ++ [lst])
          = '\n' :: (MARKERSP ++ joinWith DELIM ((front ++ [lst]).map partStr)) := by
        rw [hdelim, DELIM_cons]
        simp
      exact List.cons_injective h2
    have hnorm : pyNormalize (dir_to_fdl (front ++ [lst]))
        = MARKERSP ++ joinWith DELIM ((front ++ [lst]).map partStr) := by
      rw [pyNormalize_onlyNl _ honly]
      unfold stripOneNl
      rw [hends]
      simp [hblock]
    have hdec := decode_of_shape (dir_to_fdl (front ++ [lst]))
      (joinWith DELIM ((front ++ [lst]).map partStr))
      ((front ++ [lst]).map partStr) hnorm rfl (by simp) hgood
    rw [hdec]
    congr 1
    exact processParts_partStrs (front ++ [lst]) (fun pr hpr =>
      ⟨(hpath pr hpr).2.2, (hpath pr hpr).1, (hpath pr hpr).2.1⟩)

/-- Witness for C1 at a concrete input: two well-formed records,
the second a zero-byte file. -/
theorem c1_roundtrip_witness :
    fdl_to_dir (dir_to_fdl [("a".toList, "hello".toList), ("b/c".toList, "".toList)])
      = Except.ok [("a".toList, "hello".toList), ("b/c".toList, "".toList)] :=
  c1_roundtrip [("a".toList, "hello".toList), ("b/c".toList, "".toList)]
    (by decide) (by decide) (by decide) (by decide)

/-- Counterexample to C1 as stated: the single pair `("a", "x\n")`
satisfies every hypothesis of the claim — the path is slash-separated
and nonempty, and the content does not contain `"\n$$FILE "` — yet the
decode of its encode returns content `"x"`: the normalization step
`"\n".join(splitlines())` in `fdl_to_dir` deletes the block's trailing
newline, which is the last byte of the content. -/
theorem c1_counterexample :
    hasSeq DELIM "x\n".toList = false ∧
    pyStrip "a".toList = "a".toList ∧
    fdl_to_dir (dir_to_fdl [("a".toList, "x\n".toList)])
      ≠ Except.ok [("a".toList, "x\n".toList)] := by
  refine ⟨by decide, by decide, ?_⟩
  decide
